import Mathlib

/-!
Verification development for the Pandora `DiffUtil` list-diff engine
(`src/pandora/include/pandora/diff_util.h`).

The C++ code is shallowly embedded: machine `int` becomes `Int`,
`std::vector<int>` working arrays become total functions `Int → Int`
updated pointwise, the snake list becomes `List Snake`, and the two
C++ faults (`std::runtime_error` in `DiffPartial`, `std::out_of_range`
in the position conversions) together with the null-pointer dereference
in the dispatch pass become `Except DiffError` results.  The unbounded
`while (!stack.empty())` loop of `CalculateDiff` is modelled with an
explicit fuel counter; running out of fuel is reported as a distinct
error value so that it can never be confused with a behaviour of the
source program.
-/

deriving instance DecidableEq for Except

namespace Pandora

/-- Oracle interface of `DiffCallback` (diff_callback.h): list sizes plus the
item-identity and content-equality predicates, all functions of index pairs. -/
structure DiffCallback where
  getOldListSize : Int
  getNewListSize : Int
  areItemsTheSame : Int → Int → Bool
  areContentsTheSame : Int → Int → Bool

namespace DiffUtil

/-- Snake record of `DiffUtil::Snake` (diff_util.h lines 36-42). -/
structure Snake where
  x : Int := 0
  y : Int := 0
  size : Int := 0
  removal : Bool := false
  reverse : Bool := false
deriving Repr, DecidableEq

/-- Zero snake `(0,0,0,false,false)`: the root snake synthesized by
`AddRootSnake`, also used as the (never relevant) out-of-bounds default of
the modelled `snakes_[i]` accesses. -/
def rootSnake : Snake := { x := 0, y := 0, size := 0, removal := false, reverse := false }

/-- Sub-problem rectangle `DiffUtil::Range` (diff_util.h lines 47-57). -/
structure Range where
  oldListStart : Int := 0
  oldListEnd : Int := 0
  newListStart : Int := 0
  newListEnd : Int := 0
deriving Repr, DecidableEq

/-- Errors of the embedding: the two C++ exceptions, the null-pointer
dereference in the dispatch pass, the `unknown flag` throw, and fuel
exhaustion of the modelled work-stack loop (the C++ loop has no bound; a
run that exhausts fuel corresponds to a C++ run that has not terminated
within the modelled number of stack pops). -/
inductive DiffError where
  | diffInconsistency
  | outOfRange
  | nullPostponedUpdate
  | unknownFlag
  | outOfFuel
deriving Repr, DecidableEq

/-- Pointwise update of a modelled `std::vector<int>`. -/
def upd (a : Int → Int) (i v : Int) : Int → Int :=
  fun j => if j = i then v else a j

/-- Model of `std::fill(first, last, v)` on the half-open index interval
[lo, hi). -/
def fillRange (a : Int → Int) (lo hi v : Int) : Int → Int :=
  fun j => if lo ≤ j ∧ j < hi then v else a j

/-- Flag constant `FLAG_NOT_CHANGED` (diff_util.h line 69). -/
def FLAG_NOT_CHANGED : Int := 1

/-- Flag constant `FLAG_CHANGED`. -/
def FLAG_CHANGED : Int := 2

/-- Flag constant `FLAG_MOVED_CHANGED`. -/
def FLAG_MOVED_CHANGED : Int := 4

/-- Flag constant `FLAG_MOVED_NOT_CHANGED`. -/
def FLAG_MOVED_NOT_CHANGED : Int := 8

/-- Flag constant `FLAG_IGNORE`. -/
def FLAG_IGNORE : Int := 16

/-- Sentinel `NO_POSITION` (diff_util.h line 66). -/
def NO_POSITION : Int := -1

/-- Status word packing `(idx << FLAG_OFFSET) | flag` with `FLAG_OFFSET = 5`
and `flag < 32`: the low five bits of `idx * 32` are zero under the
two-complement machine representation, so the bitwise or is exactly the sum. -/
def pack (idx flag : Int) : Int := idx * 32 + flag

/-- Status word flag extraction `status & FLAG_MASK` with `FLAG_MASK = 31`:
on two-complement integers this is the nonnegative remainder modulo 32,
which is what `Int.emod` computes. -/
def flagOf (status : Int) : Int := status % 32

/-- Status word index extraction `status >> FLAG_OFFSET`: an arithmetic
right shift by five is floor division by 32. -/
def counterpartOf (status : Int) : Int := Int.fdiv status 32

/-- Diagonal slide of the forward search front (diff_util.h lines 299-303),
structurally recursive on a step counter: each iteration increases `x` by
one, so with the counter of `slideForward` the counter reaches zero only
when `x < oldSize` has already failed, and the fueled loop agrees with
the C++ `while` loop exactly. -/
def slideForwardGo (cb : DiffCallback) (startOld startNew oldSize newSize : Int) :
    Nat → Int → Int → Int × Int
  | 0, x, y => (x, y)
  | fuel + 1, x, y =>
    if x < oldSize ∧ y < newSize ∧
        cb.areItemsTheSame (startOld + x) (startNew + y) = true then
      slideForwardGo cb startOld startNew oldSize newSize fuel (x + 1) (y + 1)
    else
      (x, y)

/-- Entry point of the forward slide: advance `(x, y)` while in range and
the items match. -/
def slideForward (cb : DiffCallback) (startOld startNew oldSize newSize x y : Int) :
    Int × Int :=
  slideForwardGo cb startOld startNew oldSize newSize (oldSize - x).toNat x y

/-- Diagonal slide of the backward search front (diff_util.h lines
339-343), structurally recursive on a step counter; each iteration
decreases `x` by one, so with the counter of `slideBackward` the counter
reaches zero only when `x > 0` has already failed. -/
def slideBackwardGo (cb : DiffCallback) (startOld startNew : Int) :
    Nat → Int → Int → Int × Int
  | 0, x, y => (x, y)
  | fuel + 1, x, y =>
    if x > 0 ∧ y > 0 ∧
        cb.areItemsTheSame (startOld + x - 1) (startNew + y - 1) = true then
      slideBackwardGo cb startOld startNew fuel (x - 1) (y - 1)
    else
      (x, y)

/-- Entry point of the backward slide. -/
def slideBackward (cb : DiffCallback) (startOld startNew x y : Int) : Int × Int :=
  slideBackwardGo cb startOld startNew x.toNat x y

/-- Diagonals visited at depth `d`: `k = -d, -d+2, ..., d` (the C++
`for (int k = -d; k <= d; k += 2)`). -/
def kList (d : Nat) : List Int :=
  (List.range (d + 1)).map fun j => -(d : Int) + 2 * (j : Int)

/-- One forward pass of `DiffPartial` at depth `d` (diff_util.h lines
283-318), iterating over the listed diagonals, returning either the found
middle snake or the updated forward array. -/
def forwardPass (cb : DiffCallback) (startOld startNew oldSize newSize delta kOffset d : Int)
    (checkInFwd : Bool) (bwd : Int → Int) :
    List Int → (Int → Int) → Option Snake × (Int → Int)
  | [], fwd => (none, fwd)
  | k :: ks, fwd =>
    let xr : Int × Bool :=
      if k = -d ∨ (k ≠ d ∧ fwd (kOffset + k - 1) < fwd (kOffset + k + 1)) then
        (fwd (kOffset + k + 1), false)
      else
        (fwd (kOffset + k - 1) + 1, true)
    let xy := slideForward cb startOld startNew oldSize newSize xr.1 (xr.1 - k)
    let fwd2 := upd fwd (kOffset + k) xy.1
    if checkInFwd ∧ (delta - d + 1 ≤ k ∧ k ≤ delta + d - 1) ∧
        fwd2 (kOffset + k) ≥ bwd (kOffset + k) then
      (some { x := bwd (kOffset + k), y := bwd (kOffset + k) - k,
              size := fwd2 (kOffset + k) - bwd (kOffset + k),
              removal := xr.2, reverse := false }, fwd2)
    else
      forwardPass cb startOld startNew oldSize newSize delta kOffset d checkInFwd bwd ks fwd2

/-- One backward pass of `DiffPartial` at depth `d` (diff_util.h lines
321-358). -/
def backwardPass (cb : DiffCallback) (startOld startNew delta kOffset d : Int)
    (checkInFwd : Bool) (fwd : Int → Int) :
    List Int → (Int → Int) → Option Snake × (Int → Int)
  | [], bwd => (none, bwd)
  | k :: ks, bwd =>
    let backwardK := k + delta
    let xr : Int × Bool :=
      if backwardK = d + delta ∨
          (backwardK ≠ -d + delta ∧
            bwd (kOffset + backwardK - 1) < bwd (kOffset + backwardK + 1)) then
        (bwd (kOffset + backwardK - 1), false)
      else
        (bwd (kOffset + backwardK + 1) - 1, true)
    let xy := slideBackward cb startOld startNew xr.1 (xr.1 - backwardK)
    let bwd2 := upd bwd (kOffset + backwardK) xy.1
    if (¬checkInFwd) ∧ (-d ≤ k + delta ∧ k + delta ≤ d) ∧
        fwd (kOffset + backwardK) ≥ bwd2 (kOffset + backwardK) then
      (some { x := bwd2 (kOffset + backwardK), y := bwd2 (kOffset + backwardK) - backwardK,
              size := fwd (kOffset + backwardK) - bwd2 (kOffset + backwardK),
              removal := xr.2, reverse := true }, bwd2)
    else
      backwardPass cb startOld startNew delta kOffset d checkInFwd fwd ks bwd2

/-- Depth loop of `DiffPartial` (`for (int d = 0; d <= d_limit; d++)`): run
the forward then the backward pass at each depth, stopping at the first
snake.  Returns `none` when every depth up to `dLimit` has been exhausted,
which is the throwing branch of the C++ code.  The loop is structurally
recursive on an iteration counter; called with counter `(dLimit + 1).toNat`
and `d = 0` the counter reaches zero only when `d ≤ dLimit` has already
failed, so the fueled loop agrees with the C++ `for` loop exactly. -/
def dLoop (cb : DiffCallback) (startOld startNew oldSize newSize delta dLimit kOffset : Int)
    (checkInFwd : Bool) :
    Nat → Nat → (Int → Int) → (Int → Int) →
    Option Snake × (Int → Int) × (Int → Int)
  | 0, _, fwd, bwd => (none, fwd, bwd)
  | fuel + 1, d, fwd, bwd =>
    if (d : Int) ≤ dLimit then
      match forwardPass cb startOld startNew oldSize newSize delta kOffset (d : Int)
          checkInFwd bwd (kList d) fwd with
      | (some s, fwd2) => (some s, fwd2, bwd)
      | (none, fwd2) =>
        match backwardPass cb startOld startNew delta kOffset (d : Int)
            checkInFwd fwd2 (kList d) bwd with
        | (some s, bwd2) => (some s, fwd2, bwd2)
        | (none, bwd2) =>
          dLoop cb startOld startNew oldSize newSize delta dLimit kOffset checkInFwd
            fuel (d + 1) fwd2 bwd2
    else
      (none, fwd, bwd)

/-- Model of `DiffUtil::DiffPartial` (diff_util.h lines 260-365).  The
working arrays are threaded through, as in the source, which reuses them
across sub-problems and only clears the window touched by this call. -/
def diffPartial (cb : DiffCallback) (startOld endOld startNew endNew kOffset : Int)
    (forward backward : Int → Int) :
    Except DiffError (Option Snake × (Int → Int) × (Int → Int)) :=
  if endOld - startOld < 1 ∨ endNew - startNew < 1 then
    .ok (none, forward, backward)
  else
    let oldSize := endOld - startOld
    let newSize := endNew - startNew
    let delta := oldSize - newSize
    -- `oldSize` and `newSize` are both at least 1 past the guard, so the
    -- dividend is positive and Lean division agrees with the C++ `/`.
    let dLimit := (oldSize + newSize + 1) / 2
    let fwd0 := fillRange forward (kOffset - dLimit - 1) (kOffset + dLimit + 1) 0
    let bwd0 := fillRange backward (kOffset - dLimit - 1 + delta) (kOffset + dLimit + 1 + delta) oldSize
    let checkInFwd : Bool := delta % 2 != 0
    match dLoop cb startOld startNew oldSize newSize delta dLimit kOffset checkInFwd
        (dLimit + 1).toNat 0 fwd0 bwd0 with
    | (some s, f, b) => .ok (some s, f, b)
    | (none, _, _) => .error .diffInconsistency

/-- Work-stack loop of `CalculateDiff` (diff_util.h lines 191-245).  The
list is used as a stack with the head as top, matching the
`push_back`/`pop_back` discipline of the source (left pushed first, right
pushed second and therefore popped first).

A modelling note that matters for several claims: the source executes
`snakes.push_back(*snake)` at line 201 and only afterwards offsets the
local snake (`snake->x += range.old_list_start`, lines 205-206), so the
stored copy keeps coordinates relative to the popped sub-range while the
left/right splitting below uses the offset (global) coordinates.  This is
reproduced here exactly: `snakes2` receives `snake` itself, the ranges are
built from `gx`/`gy`. -/
def calculateDiffLoop (cb : DiffCallback) (kOffset : Int) :
    Nat → List Range → List Snake → (Int → Int) → (Int → Int) →
    Except DiffError (List Snake)
  | _, [], snakes, _, _ => .ok snakes
  | 0, _ :: _, _, _, _ => .error .outOfFuel
  | fuel + 1, range :: rest, snakes, fwd, bwd =>
    match diffPartial cb range.oldListStart range.oldListEnd range.newListStart
        range.newListEnd kOffset fwd bwd with
    | .error e => .error e
    | .ok (none, fwd2, bwd2) => calculateDiffLoop cb kOffset fuel rest snakes fwd2 bwd2
    | .ok (some snake, fwd2, bwd2) =>
      let snakes2 := if snake.size > 0 then snakes ++ [snake] else snakes
      let gx := snake.x + range.oldListStart
      let gy := snake.y + range.newListStart
      let left : Range :=
        if snake.reverse then
          { oldListStart := range.oldListStart, newListStart := range.newListStart,
            oldListEnd := gx, newListEnd := gy }
        else if snake.removal then
          { oldListStart := range.oldListStart, newListStart := range.newListStart,
            oldListEnd := gx - 1, newListEnd := gy }
        else
          { oldListStart := range.oldListStart, newListStart := range.newListStart,
            oldListEnd := gx, newListEnd := gy - 1 }
      let right : Range :=
        if snake.reverse then
          if snake.removal then
            { oldListStart := gx + snake.size + 1, newListStart := gy + snake.size,
              oldListEnd := range.oldListEnd, newListEnd := range.newListEnd }
          else
            { oldListStart := gx + snake.size, newListStart := gy + snake.size + 1,
              oldListEnd := range.oldListEnd, newListEnd := range.newListEnd }
        else
          { oldListStart := gx + snake.size, newListStart := gy + snake.size,
            oldListEnd := range.oldListEnd, newListEnd := range.newListEnd }
      calculateDiffLoop cb kOffset fuel (right :: left :: rest) snakes2 fwd2 bwd2

/-- Comparator of the `std::sort` call (diff_util.h lines 248-251):
lexicographic on `(x, y)`. -/
def snakeBefore (a b : Snake) : Bool :=
  decide (a.x < b.x ∨ (a.x = b.x ∧ a.y < b.y))

/-- Sorted insertion used to model the `std::sort` call.  The C++
comparator is a strict weak order on `(x, y)`; `std::sort` leaves the
relative order of elements with equal keys unspecified, and this model
fixes the stable order.  On snake lists without duplicate `(x, y)` keys
(every run examined by the theorems below) the result of any conforming
sort is the same. -/
def insertSorted (s : Snake) : List Snake → List Snake
  | [] => [s]
  | t :: ts => if snakeBefore s t then s :: t :: ts else t :: insertSorted s ts

/-- Insertion sort of the snake list by `(x, y)`. -/
def sortSnakes : List Snake → List Snake
  | [] => []
  | s :: ss => insertSorted s (sortSnakes ss)

/-- State of the status-assignment pass: the two status arrays plus an
instrumentation log of every index pair passed to
`DiffCallback::AreContentsTheSame`, in call order.  The log is write-only
and influences no other field; it exists so that the call-precondition
claims can be stated. -/
structure MatchState where
  oldStat : Int → Int
  newStat : Int → Int
  queries : List (Int × Int)

/-- Inner candidate scan of `FindMatchingItem` in the `removal` branch
(diff_util.h lines 458-466): walk `pos` down from `curX - 1` to `endX`,
and on the first identity match record the move pair.  Structurally
recursive on a step counter; `scanRemoval` passes `(pos - endX + 1).toNat`,
which reaches zero only when `pos ≥ endX` has already failed. -/
def scanRemovalGo (cb : DiffCallback) (st : MatchState) (myItemPos endX : Int) :
    Nat → Int → Option MatchState
  | 0, _ => none
  | fuel + 1, pos =>
    if pos ≥ endX then
      if cb.areItemsTheSame pos myItemPos then
        let theSame := cb.areContentsTheSame pos myItemPos
        let changeFlag := if theSame then FLAG_MOVED_NOT_CHANGED else FLAG_MOVED_CHANGED
        some { oldStat := upd st.oldStat pos (pack myItemPos changeFlag),
               newStat := upd st.newStat myItemPos (pack pos FLAG_IGNORE),
               queries := st.queries ++ [(pos, myItemPos)] }
      else
        scanRemovalGo cb st myItemPos endX fuel (pos - 1)
    else
      none

/-- Entry point of the removal-direction candidate scan. -/
def scanRemoval (cb : DiffCallback) (st : MatchState) (myItemPos endX pos : Int) :
    Option MatchState :=
  scanRemovalGo cb st myItemPos endX (pos - endX + 1).toNat pos

/-- Inner candidate scan of `FindMatchingItem` in the addition branch
(diff_util.h lines 468-476), structured like `scanRemovalGo`. -/
def scanAdditionGo (cb : DiffCallback) (st : MatchState) (myItemPos endY : Int) :
    Nat → Int → Option MatchState
  | 0, _ => none
  | fuel + 1, pos =>
    if pos ≥ endY then
      if cb.areItemsTheSame myItemPos pos then
        let theSame := cb.areContentsTheSame myItemPos pos
        let changeFlag := if theSame then FLAG_MOVED_NOT_CHANGED else FLAG_MOVED_CHANGED
        some { oldStat := upd st.oldStat myItemPos (pack pos FLAG_IGNORE),
               newStat := upd st.newStat pos (pack myItemPos changeFlag),
               queries := st.queries ++ [(myItemPos, pos)] }
      else
        scanAdditionGo cb st myItemPos endY fuel (pos - 1)
    else
      none

/-- Entry point of the addition-direction candidate scan. -/
def scanAddition (cb : DiffCallback) (st : MatchState) (myItemPos endY pos : Int) :
    Option MatchState :=
  scanAdditionGo cb st myItemPos endY (pos - endY + 1).toNat pos

/-- Outer snake walk of `FindMatchingItem` (diff_util.h lines 452-481),
indices descending; `n` counts the remaining snake indices, the current
index being `n - 1`. -/
def findMatchingItemLoop (cb : DiffCallback) (snakes : List Snake) (myItemPos : Int)
    (removal : Bool) : Nat → Int → Int → MatchState → MatchState
  | 0, _, _, st => st
  | n + 1, curX, curY, st =>
    let snake := snakes.getD n rootSnake
    let endX := snake.x + snake.size
    let endY := snake.y + snake.size
    if removal then
      match scanRemoval cb st myItemPos endX (curX - 1) with
      | some st2 => st2
      | none => findMatchingItemLoop cb snakes myItemPos removal n snake.x snake.y st
    else
      match scanAddition cb st myItemPos endY (curY - 1) with
      | some st2 => st2
      | none => findMatchingItemLoop cb snakes myItemPos removal n snake.x snake.y st

/-- Model of `DiffResult::FindMatchingItem` (diff_util.h lines 446-484).
The boolean result of the C++ function is ignored by both call sites, so
only the state is returned. -/
def findMatchingItem (cb : DiffCallback) (snakes : List Snake) (st : MatchState)
    (x y : Int) (snakeIndex : Nat) (removal : Bool) : MatchState :=
  let myItemPos := if removal then y - 1 else x - 1
  let curX := if removal then x else x - 1
  let curY := if removal then y - 1 else y
  findMatchingItemLoop cb snakes myItemPos removal (snakeIndex + 1) curX curY st

/-- Model of `DiffResult::FindAddition` (diff_util.h lines 432-437). -/
def findAddition (cb : DiffCallback) (snakes : List Snake) (st : MatchState)
    (x y : Int) (snakeIndex : Nat) : MatchState :=
  if st.oldStat (x - 1) ≠ 0 then st
  else findMatchingItem cb snakes st x y snakeIndex false

/-- Model of `DiffResult::FindRemoval` (diff_util.h lines 439-444). -/
def findRemoval (cb : DiffCallback) (snakes : List Snake) (st : MatchState)
    (x y : Int) (snakeIndex : Nat) : MatchState :=
  if st.newStat (y - 1) ≠ 0 then st
  else findMatchingItem cb snakes st x y snakeIndex true

/-- Gap walk `while (pos_old > end_x) { FindAddition(...); pos_old--; }`
(diff_util.h lines 408-411); returns the state and the final cursor.
Structurally recursive on a step counter; `findAdditionsLoop` passes
`(posOld - endX).toNat`, which reaches zero only when `posOld > endX` has
already failed. -/
def findAdditionsLoopGo (cb : DiffCallback) (snakes : List Snake) (posNew endX : Int)
    (snakeIndex : Nat) : Nat → MatchState → Int → MatchState × Int
  | 0, st, posOld => (st, posOld)
  | fuel + 1, st, posOld =>
    if posOld > endX then
      let st2 := findAddition cb snakes st posOld posNew snakeIndex
      findAdditionsLoopGo cb snakes posNew endX snakeIndex fuel st2 (posOld - 1)
    else
      (st, posOld)

/-- Entry point of the old-side gap walk. -/
def findAdditionsLoop (cb : DiffCallback) (snakes : List Snake) (posNew endX : Int)
    (snakeIndex : Nat) (st : MatchState) (posOld : Int) : MatchState × Int :=
  findAdditionsLoopGo cb snakes posNew endX snakeIndex (posOld - endX).toNat st posOld

/-- Gap walk `while (pos_new > end_y) { FindRemoval(...); pos_new--; }`
(diff_util.h lines 412-415), structured like `findAdditionsLoopGo`. -/
def findRemovalsLoopGo (cb : DiffCallback) (snakes : List Snake) (posOld endY : Int)
    (snakeIndex : Nat) : Nat → MatchState → Int → MatchState × Int
  | 0, st, posNew => (st, posNew)
  | fuel + 1, st, posNew =>
    if posNew > endY then
      let st2 := findRemoval cb snakes st posOld posNew snakeIndex
      findRemovalsLoopGo cb snakes posOld endY snakeIndex fuel st2 (posNew - 1)
    else
      (st, posNew)

/-- Entry point of the new-side gap walk. -/
def findRemovalsLoop (cb : DiffCallback) (snakes : List Snake) (posOld endY : Int)
    (snakeIndex : Nat) (st : MatchState) (posNew : Int) : MatchState × Int :=
  findRemovalsLoopGo cb snakes posOld endY snakeIndex (posNew - endY).toNat st posNew

/-- Status assignment for the matched pairs inside one snake run
(diff_util.h lines 418-425). -/
def snakeBody (cb : DiffCallback) (sx sy : Int) (size : Nat) (st : MatchState) :
    MatchState :=
  (List.range size).foldl
    (fun st (j : Nat) =>
      let oldItemPos := sx + (j : Int)
      let newItemPos := sy + (j : Int)
      let theSame := cb.areContentsTheSame oldItemPos newItemPos
      let changeFlag := if theSame then FLAG_NOT_CHANGED else FLAG_CHANGED
      { oldStat := upd st.oldStat oldItemPos (pack newItemPos changeFlag),
        newStat := upd st.newStat newItemPos (pack oldItemPos changeFlag),
        queries := st.queries ++ [(oldItemPos, newItemPos)] })
    st

/-- Reverse snake walk of `FindMatchingItems` (diff_util.h lines 398-430);
`n` counts the remaining snake indices, the current index being `n - 1`. -/
def findMatchingItemsLoop (cb : DiffCallback) (snakes : List Snake) (detectMoves : Bool) :
    Nat → Int → Int → MatchState → MatchState
  | 0, _, _, st => st
  | n + 1, posOld, posNew, st =>
    let snake := snakes.getD n rootSnake
    let endX := snake.x + snake.size
    let endY := snake.y + snake.size
    let sp1 := if detectMoves then findAdditionsLoop cb snakes posNew endX n st posOld
               else (st, posOld)
    let sp2 := if detectMoves then findRemovalsLoop cb snakes sp1.2 endY n sp1.1 posNew
               else (sp1.1, posNew)
    let st3 := snakeBody cb snake.x snake.y snake.size.toNat sp2.1
    findMatchingItemsLoop cb snakes detectMoves n snake.x snake.y st3

/-- Model of `DiffResult::FindMatchingItems` (diff_util.h lines 398-430). -/
def findMatchingItems (cb : DiffCallback) (snakes : List Snake) (detectMoves : Bool)
    (oldListSize newListSize : Int) : MatchState :=
  findMatchingItemsLoop cb snakes detectMoves snakes.length oldListSize newListSize
    { oldStat := fun _ => 0, newStat := fun _ => 0, queries := [] }

/-- Model of `DiffResult::AddRootSnake` (diff_util.h lines 385-396). -/
def addRootSnake (snakes : List Snake) : List Snake :=
  match snakes with
  | [] => [rootSnake]
  | s :: _ =>
    if s.x ≠ 0 ∨ s.y ≠ 0 then
      rootSnake :: snakes
    else
      snakes

/-- Result record of `DiffUtil::DiffResult`, with the captured callback,
list sizes and flag, plus the instrumentation log of the construction-time
`AreContentsTheSame` calls. -/
structure DiffResult where
  snakes : List Snake
  oldItemStatuses : Int → Int
  newItemStatuses : Int → Int
  callback : DiffCallback
  oldListSize : Int
  newListSize : Int
  detectMoves : Bool
  contentsQueries : List (Int × Int)

/-- Model of the `DiffResult` constructor (diff_util.h lines 368-383):
capture the sizes, add the root snake, run `FindMatchingItems`. -/
def mkDiffResult (cb : DiffCallback) (snakes : List Snake) (detectMoves : Bool) :
    DiffResult :=
  let snakes2 := addRootSnake snakes
  let st := findMatchingItems cb snakes2 detectMoves cb.getOldListSize cb.getNewListSize
  { snakes := snakes2, oldItemStatuses := st.oldStat, newItemStatuses := st.newStat,
    callback := cb, oldListSize := cb.getOldListSize, newListSize := cb.getNewListSize,
    detectMoves := detectMoves, contentsQueries := st.queries }

/-- Model of the two-argument `DiffUtil::CalculateDiff` (diff_util.h lines
175-258).  The fuel bound `2 * (oldSize + newSize) + 4` covers every run in
which each popped rectangle either yields no snake or splits into strictly
smaller work, which is every terminating run of the source loop on inputs
of this size. -/
def calculateDiff (cb : DiffCallback) (detectMoves : Bool) :
    Except DiffError DiffResult :=
  let oldSize := cb.getOldListSize
  let newSize := cb.getNewListSize
  let maxSize := oldSize + newSize + ((oldSize - newSize).natAbs : Int)
  let fuel := 2 * (oldSize + newSize).toNat + 4
  (calculateDiffLoop cb maxSize fuel
      [{ oldListStart := 0, oldListEnd := oldSize, newListStart := 0, newListEnd := newSize }]
      [] (fun _ => 0) (fun _ => 0)).map
    fun snakes => mkDiffResult cb (sortSnakes snakes) detectMoves

/-- Model of the one-argument `CalculateDiff` entry point (diff_util.h
lines 146-148), which fixes `detect_moves = true`. -/
def calculateDiffDefault (cb : DiffCallback) : Except DiffError DiffResult :=
  calculateDiff cb true

/-- Model of `DiffResult::ConvertOldPositionToNew` (diff_util.h lines
486-497). -/
def convertOldPositionToNew (res : DiffResult) (oldListPosition : Int) :
    Except DiffError Int :=
  if oldListPosition < 0 ∨ oldListPosition ≥ res.oldListSize then
    .error .outOfRange
  else
    let status := res.oldItemStatuses oldListPosition
    if flagOf status = 0 then .ok NO_POSITION else .ok (counterpartOf status)

/-- Model of `DiffResult::ConvertNewPositionToOld` (diff_util.h lines
499-510). -/
def convertNewPositionToOld (res : DiffResult) (newListPosition : Int) :
    Except DiffError Int :=
  if newListPosition < 0 ∨ newListPosition ≥ res.newListSize then
    .error .outOfRange
  else
    let status := res.newItemStatuses newListPosition
    if flagOf status = 0 then .ok NO_POSITION else .ok (counterpartOf status)

/-- Postponed-update record (diff_util.h lines 105-112). -/
structure PostponedUpdate where
  posInOwnerList : Int
  currentPos : Int
  removal : Bool
deriving Repr, DecidableEq

/-- Emitted callback operations of `ListUpdateCallback`.  `OnChanged`
carries, besides position and count, the index pair that the source passes
to `DiffCallback::GetChangePayload` for the payload argument. -/
inductive UpdateOp where
  | onInserted (position count : Int)
  | onRemoved (position count : Int)
  | onMoved (fromPosition toPosition : Int)
  | onChanged (position count payloadOldIndex payloadNewIndex : Int)
deriving Repr, DecidableEq

/-- Model of `DiffResult::RemovePostponedUpdate` (diff_util.h lines
512-526): the vector is scanned from the back, the last matching entry is
removed, and every entry after it has its display position shifted.  The
recursion inspects the tail (the later entries) first, which realises the
back-to-front scan. -/
def removePostponedUpdate (pos : Int) (removal : Bool) :
    List PostponedUpdate → Option PostponedUpdate × List PostponedUpdate
  | [] => (none, [])
  | u :: rest =>
    match removePostponedUpdate pos removal rest with
    | (some found, rest2) => (some found, u :: rest2)
    | (none, _) =>
      if u.posInOwnerList = pos ∧ u.removal = removal then
        (some u,
          rest.map fun v => { v with currentPos := v.currentPos + (if removal then 1 else -1) })
      else
        (none, u :: rest)

/-- Per-item loop of `DispatchAdditions` with move detection (diff_util.h
lines 538-569), `i` descending from `count - 1` to `0`.  The branch in
which `RemovePostponedUpdate` returns null is the unguarded
`update->current_pos` dereference of the source and is modelled as the
`nullPostponedUpdate` error; the `default` branch is the `unknown flag`
throw. -/
def dispatchAdditionsLoopGo (newStat : Int → Int) (start globalIndex : Int) :
    Nat → List PostponedUpdate → Int →
    Except DiffError (List UpdateOp × List PostponedUpdate)
  | 0, postponed, _ => .ok ([], postponed)
  | fuel + 1, postponed, i =>
    if i ≥ 0 then
      let status := flagOf (newStat (globalIndex + i))
      if status = 0 then
        let postponed2 := postponed.map fun u => { u with currentPos := u.currentPos + 1 }
        match dispatchAdditionsLoopGo newStat start globalIndex fuel postponed2 (i - 1) with
        | .error e => .error e
        | .ok (ops, p3) => .ok (.onInserted start 1 :: ops, p3)
      else if status = FLAG_MOVED_CHANGED ∨ status = FLAG_MOVED_NOT_CHANGED then
        let pos := counterpartOf (newStat (globalIndex + i))
        match removePostponedUpdate pos true postponed with
        | (none, _) => .error .nullPostponedUpdate
        | (some u, postponed2) =>
          let headOps := UpdateOp.onMoved u.currentPos start ::
            (if status = FLAG_MOVED_CHANGED then
              [UpdateOp.onChanged start 1 pos (globalIndex + i)] else [])
          match dispatchAdditionsLoopGo newStat start globalIndex fuel postponed2 (i - 1) with
          | .error e => .error e
          | .ok (ops, p3) => .ok (headOps ++ ops, p3)
      else if status = FLAG_IGNORE then
        dispatchAdditionsLoopGo newStat start globalIndex fuel
          (postponed ++ [⟨globalIndex + i, start, false⟩]) (i - 1)
      else
        .error .unknownFlag
    else
      .ok ([], postponed)

/-- Entry point of the additions per-item loop, with step counter
`(i + 1).toNat`, which reaches zero only when `i ≥ 0` has already
failed. -/
def dispatchAdditionsLoop (newStat : Int → Int) (start globalIndex : Int)
    (postponed : List PostponedUpdate) (i : Int) :
    Except DiffError (List UpdateOp × List PostponedUpdate) :=
  dispatchAdditionsLoopGo newStat start globalIndex (i + 1).toNat postponed i

/-- Model of `DiffResult::DispatchAdditions` (diff_util.h lines 528-570):
without move detection a single coalesced insertion is emitted. -/
def dispatchAdditions (detectMoves : Bool) (newStat : Int → Int)
    (postponed : List PostponedUpdate) (start count globalIndex : Int) :
    Except DiffError (List UpdateOp × List PostponedUpdate) :=
  if ¬detectMoves then
    .ok ([.onInserted start count], postponed)
  else
    dispatchAdditionsLoop newStat start globalIndex postponed (count - 1)

/-- Per-item loop of `DispatchRemovals` with move detection (diff_util.h
lines 582-613). -/
def dispatchRemovalsLoopGo (oldStat : Int → Int) (start globalIndex : Int) :
    Nat → List PostponedUpdate → Int →
    Except DiffError (List UpdateOp × List PostponedUpdate)
  | 0, postponed, _ => .ok ([], postponed)
  | fuel + 1, postponed, i =>
    if i ≥ 0 then
      let status := flagOf (oldStat (globalIndex + i))
      if status = 0 then
        let postponed2 := postponed.map fun u => { u with currentPos := u.currentPos - 1 }
        match dispatchRemovalsLoopGo oldStat start globalIndex fuel postponed2 (i - 1) with
        | .error e => .error e
        | .ok (ops, p3) => .ok (.onRemoved (start + i) 1 :: ops, p3)
      else if status = FLAG_MOVED_CHANGED ∨ status = FLAG_MOVED_NOT_CHANGED then
        let pos := counterpartOf (oldStat (globalIndex + i))
        match removePostponedUpdate pos false postponed with
        | (none, _) => .error .nullPostponedUpdate
        | (some u, postponed2) =>
          let headOps := UpdateOp.onMoved (start + i) (u.currentPos - 1) ::
            (if status = FLAG_MOVED_CHANGED then
              [UpdateOp.onChanged (u.currentPos - 1) 1 (globalIndex + i) pos] else [])
          match dispatchRemovalsLoopGo oldStat start globalIndex fuel postponed2 (i - 1) with
          | .error e => .error e
          | .ok (ops, p3) => .ok (headOps ++ ops, p3)
      else if status = FLAG_IGNORE then
        dispatchRemovalsLoopGo oldStat start globalIndex fuel
          (postponed ++ [⟨globalIndex + i, start + i, true⟩]) (i - 1)
      else
        .error .unknownFlag
    else
      .ok ([], postponed)

/-- Entry point of the removals per-item loop, with step counter
`(i + 1).toNat`. -/
def dispatchRemovalsLoop (oldStat : Int → Int) (start globalIndex : Int)
    (postponed : List PostponedUpdate) (i : Int) :
    Except DiffError (List UpdateOp × List PostponedUpdate) :=
  dispatchRemovalsLoopGo oldStat start globalIndex (i + 1).toNat postponed i

/-- Model of `DiffResult::DispatchRemovals` (diff_util.h lines 572-614). -/
def dispatchRemovals (detectMoves : Bool) (oldStat : Int → Int)
    (postponed : List PostponedUpdate) (start count globalIndex : Int) :
    Except DiffError (List UpdateOp × List PostponedUpdate) :=
  if ¬detectMoves then
    .ok ([.onRemoved start count], postponed)
  else
    dispatchRemovalsLoop oldStat start globalIndex postponed (count - 1)

/-- Interior change emission of `DispatchUpdatesTo` (diff_util.h lines
635-640): one `OnChanged` per `FLAG_CHANGED` item of the snake run, `i`
descending from `size - 1` to `0`; the argument counts the remaining run
positions, the current one being `j`. -/
def changedOps (oldStat : Int → Int) (sx sy : Int) : Nat → List UpdateOp
  | 0 => []
  | j + 1 =>
    (if flagOf (oldStat (sx + (j : Int))) = FLAG_CHANGED then
      [UpdateOp.onChanged (sx + (j : Int)) 1 (sx + (j : Int)) (sy + (j : Int))]
     else []) ++ changedOps oldStat sx sy j

/-- Reverse snake walk of `DispatchUpdatesTo` (diff_util.h lines 616-645);
`n` counts the remaining snake indices, the current index being `n - 1`. -/
def dispatchUpdatesToLoop (res : DiffResult) :
    Nat → Int → Int → List PostponedUpdate → Except DiffError (List UpdateOp)
  | 0, _, _, _ => .ok []
  | n + 1, posOld, posNew, postponed =>
    let snake := res.snakes.getD n rootSnake
    let endX := snake.x + snake.size
    let endY := snake.y + snake.size
    match (if endX < posOld then
            dispatchRemovals res.detectMoves res.oldItemStatuses postponed endX
              (posOld - endX) endX
           else .ok ([], postponed)) with
    | .error e => .error e
    | .ok (ops1, p1) =>
      match (if endY < posNew then
              dispatchAdditions res.detectMoves res.newItemStatuses p1 endX
                (posNew - endY) endY
             else .ok ([], p1)) with
      | .error e => .error e
      | .ok (ops2, p2) =>
        let ops3 := changedOps res.oldItemStatuses snake.x snake.y snake.size.toNat
        match dispatchUpdatesToLoop res n snake.x snake.y p2 with
        | .error e => .error e
        | .ok rest => .ok (ops1 ++ ops2 ++ ops3 ++ rest)

/-- Model of `DiffResult::DispatchUpdatesTo` (diff_util.h lines 616-645),
returning the emitted operation stream in emission order. -/
def dispatchUpdatesTo (res : DiffResult) : Except DiffError (List UpdateOp) :=
  dispatchUpdatesToLoop res res.snakes.length res.oldListSize res.newListSize []

/-- Full pipeline on a pair of concrete lists of `(identity, content)`
pairs, with the oracle of the repository test suite
(test_diff_util.cpp `TestDiffCallback`): items are the same when the
identities agree, contents are the same when the pairs agree. -/
def callbackOfLists (old new : List (Int × Int)) : DiffCallback where
  getOldListSize := (old.length : Int)
  getNewListSize := (new.length : Int)
  areItemsTheSame := fun i j => (old.getD i.toNat (0, 0)).1 == (new.getD j.toNat (0, 0)).1
  areContentsTheSame := fun i j => old.getD i.toNat (0, 0) == new.getD j.toNat (0, 0)

/-- Operation stream of the full pipeline on two concrete lists. -/
def diffStream (old new : List (Int × Int)) (detectMoves : Bool) :
    Except DiffError (List UpdateOp) :=
  match calculateDiff (callbackOfLists old new) detectMoves with
  | .error e => .error e
  | .ok res => dispatchUpdatesTo res

/-- Cell of the replay harness: either the old-list item at index `i`
(with a mark recording whether an `OnChanged` touched it) or a cell
freshly created by an `OnInserted`. -/
inductive ReplayCell where
  | fromOld (i : Int) (changed : Bool)
  | added
deriving Repr, DecidableEq

/-- Replay of one emitted operation on a mutable copy of the old list,
following the documented `ListUpdateCallback` contract
(list_update_callback.h): `OnInserted(p, c)` inserts `c` items at `p`,
`OnRemoved(p, c)` removes the `c` items at `p`, `OnMoved(f, t)` removes
the item at `f` and reinserts it at `t`, and `OnChanged(p, c, _)` updates
the contents of the `c` items at `p` in place (identity preserved). -/
def applyOp (cells : List ReplayCell) : UpdateOp → List ReplayCell
  | .onInserted p c => cells.take p.toNat ++ List.replicate c.toNat .added ++ cells.drop p.toNat
  | .onRemoved p c => cells.take p.toNat ++ cells.drop (p.toNat + c.toNat)
  | .onMoved f t =>
    let cell := cells.getD f.toNat .added
    let cells2 := cells.take f.toNat ++ cells.drop (f.toNat + 1)
    cells2.take t.toNat ++ [cell] ++ cells2.drop t.toNat
  | .onChanged p c _ _ =>
    cells.enum.map fun ic =>
      if p ≤ (ic.1 : Int) ∧ (ic.1 : Int) < p + c then
        match ic.2 with
        | .fromOld i _ => .fromOld i true
        | .added => .added
      else ic.2

/-- Mutable copy of an old list of size `n`, before any operation. -/
def initialCells (n : Nat) : List ReplayCell :=
  (List.range n).map fun i => .fromOld i false

/-- Replay of a whole operation stream. -/
def replayStream (n : Nat) (ops : List UpdateOp) : List ReplayCell :=
  ops.foldl applyOp (initialCells n)

/-- Specification-side description of the dispatch stream without move
detection, written after the spec sentence `dispatchRemovals /
dispatchAdditions, when detectMoves is false, emit one coalesced
range-remove / range-insert callback directly and return`: the reverse
snake walk emits at most one coalesced removal and one coalesced
insertion per inter-snake gap, plus the per-item changes of the snake
run.  It is compared with the dispatch pass of the source in the
refinement theorem for the no-move-detection claim. -/
def coalescedWalkLoop (res : DiffResult) : Nat → Int → Int → List UpdateOp
  | 0, _, _ => []
  | n + 1, posOld, posNew =>
    let snake := res.snakes.getD n rootSnake
    let endX := snake.x + snake.size
    let endY := snake.y + snake.size
    (if endX < posOld then [UpdateOp.onRemoved endX (posOld - endX)] else []) ++
    (if endY < posNew then [UpdateOp.onInserted endX (posNew - endY)] else []) ++
    changedOps res.oldItemStatuses snake.x snake.y snake.size.toNat ++
    coalescedWalkLoop res n snake.x snake.y

/-- Whole-stream form of `coalescedWalkLoop`. -/
def coalescedWalk (res : DiffResult) : List UpdateOp :=
  coalescedWalkLoop res res.snakes.length res.oldListSize res.newListSize

/-- Move recogniser on emitted operations. -/
def UpdateOp.isMove : UpdateOp → Bool
  | .onMoved _ _ => true
  | _ => false

/-!
Edit-graph path predicates for the convergence proof of `DiffPartial`
(claim C8).  `PathF cb sO sN n m d x y` says the grid point `(x, y)` of
the sub-problem with old length `n` and new length `m` (cells read through
the oracle at offsets `sO`, `sN`) is reachable from `(0, 0)` by a path
using exactly `d` horizontal or vertical edges plus any number of matching
in-range diagonal edges; `PathB` is the dual notion of a path from
`(x, y)` to the corner `(n, m)`.
-/

inductive PathF (cb : DiffCallback) (sO sN n m : Int) : Nat → Int → Int → Prop where
  | start : PathF cb sO sN n m 0 0 0
  | diag (d : Nat) (x y : Int) (h : PathF cb sO sN n m d x y)
      (hx0 : 0 ≤ x) (hx : x < n) (hy0 : 0 ≤ y) (hy : y < m)
      (hmt : cb.areItemsTheSame (sO + x) (sN + y) = true) :
      PathF cb sO sN n m d (x + 1) (y + 1)
  | step_right (d : Nat) (x y : Int) (h : PathF cb sO sN n m d x y)
      (hx0 : 0 ≤ x) (hx : x < n) : PathF cb sO sN n m (d + 1) (x + 1) y
  | step_down (d : Nat) (x y : Int) (h : PathF cb sO sN n m d x y)
      (hy0 : 0 ≤ y) (hy : y < m) : PathF cb sO sN n m (d + 1) x (y + 1)

/-- Dual reachability: a path from `(x, y)` to the corner `(n, m)` with
exactly `d` non-diagonal edges, built by prepending edges at `(x, y)`. -/
inductive PathB (cb : DiffCallback) (sO sN n m : Int) : Nat → Int → Int → Prop where
  | corner : PathB cb sO sN n m 0 n m
  | diag (d : Nat) (x y : Int) (h : PathB cb sO sN n m d (x + 1) (y + 1))
      (hx0 : 0 ≤ x) (hx : x < n) (hy0 : 0 ≤ y) (hy : y < m)
      (hmt : cb.areItemsTheSame (sO + x) (sN + y) = true) :
      PathB cb sO sN n m d x y
  | step_right (d : Nat) (x y : Int) (h : PathB cb sO sN n m d (x + 1) y)
      (hx0 : 0 ≤ x) (hx : x < n) : PathB cb sO sN n m (d + 1) x y
  | step_down (d : Nat) (x y : Int) (h : PathB cb sO sN n m d x (y + 1))
      (hy0 : 0 ≤ y) (hy : y < m) : PathB cb sO sN n m (d + 1) x y

/-- Matching in-range diagonal cells `(i, i - k)` for every `i` in
`[lo, hi)` on the diagonal `k`. -/
def diagCells (cb : DiffCallback) (sO sN n m lo hi k : Int) : Prop :=
  ∀ i : Int, lo ≤ i → i < hi →
    0 ≤ i ∧ i < n ∧ 0 ≤ i - k ∧ i - k < m ∧
      cb.areItemsTheSame (sO + i) (sN + (i - k)) = true

/-- Geometric facts about a returned middle snake, exactly what makes the
divide step of `CalculateDiff` shrink the clamped work left on the stack. -/
def snakeGood (n m : Int) (s : Snake) : Prop :=
  0 ≤ s.size ∧ s.x ≤ n ∧ s.y ≤ m ∧ 0 ≤ s.x + s.size ∧ 0 ≤ s.y + s.size ∧
    (s.reverse = false →
      (s.removal = true → 1 ≤ s.x + s.size) ∧
        (s.removal = false → 1 ≤ s.y + s.size)) ∧
    (s.reverse = true →
      (s.removal = true → s.x ≤ n - 1) ∧ (s.removal = false → s.y ≤ m - 1))

/-- Clamped item count of a work rectangle. -/
def rangeItems (r : Range) : Nat :=
  (r.oldListEnd - r.oldListStart).toNat + (r.newListEnd - r.newListStart).toNat

/-- Termination potential of the work stack of `calculateDiffLoop`: every
pop strictly decreases it. -/
def stackWeight : List Range → Nat
  | [] => 0
  | r :: rest => 2 * rangeItems r + 1 + stackWeight rest

/-- The forward working array dominates, at diagonal `k`, every point of a
forward path with `d` non-diagonal edges. -/
def domF (cb : DiffCallback) (sO sN n m : Int) (d : Nat) (ko k : Int)
    (f : Int → Int) : Prop :=
  ∀ x y : Int, PathF cb sO sN n m d x y → x - y = k → x ≤ f (ko + k)

/-- The backward working array minorises, at diagonal `k`, every point of
a co-path with `d` non-diagonal edges. -/
def domB (cb : DiffCallback) (sO sN n m : Int) (d : Nat) (ko k : Int)
    (b : Int → Int) : Prop :=
  ∀ x y : Int, PathB cb sO sN n m d x y → x - y = k → b (ko + k) ≤ x

/-- Lower bounds on a forward value: the recorded `x` and the implied
`y = x - k` are both nonnegative. -/
def cleanF (ko k : Int) (f : Int → Int) : Prop := max 0 k ≤ f (ko + k)

/-- Upper bounds on a backward value: the recorded `x` stays at most `n`
and the implied `y = x - k` at most `m`. -/
def cleanB (n m ko k : Int) (b : Int → Int) : Prop := b (ko + k) ≤ min n (m + k)

/-!
Theorems.  Shared helper lemmas come first, then one theorem per claim
(plus its witness or counterexample).
-/

/-- Inversion of a successful `Except.map`. -/
theorem exceptMap_ok {ε α β : Type} (f : α → β) (x : Except ε α) (b : β)
    (h : x.map f = .ok b) : ∃ a, x = .ok a ∧ b = f a := by
  cases x with
  | error e => simp [Except.map] at h
  | ok a => exact ⟨a, rfl, by simpa [Except.map] using h.symm⟩

/-- Shape of a successful `calculateDiff` result: it is `mkDiffResult`
applied to the sorted snakes of some loop run. -/
theorem calculateDiff_shape (cb : DiffCallback) (dm : Bool) (res : DiffResult)
    (h : calculateDiff cb dm = .ok res) :
    ∃ snakes, res = mkDiffResult cb (sortSnakes snakes) dm := by
  unfold calculateDiff at h
  obtain ⟨snakes, -, hres⟩ := exceptMap_ok _ _ _ h
  exact ⟨snakes, hres⟩

/-- Shape of a successful `calculateDiff` result: the captured sizes and
flag are those of the callback, and the snake list has passed
`addRootSnake`. -/
theorem calculateDiff_fields (cb : DiffCallback) (dm : Bool) (res : DiffResult)
    (h : calculateDiff cb dm = .ok res) :
    res.oldListSize = cb.getOldListSize ∧ res.newListSize = cb.getNewListSize ∧
    res.detectMoves = dm ∧ ∃ l, res.snakes = addRootSnake l := by
  obtain ⟨snakes, hres⟩ := calculateDiff_shape cb dm res h
  subst hres
  exact ⟨rfl, rfl, rfl, sortSnakes snakes, rfl⟩

/-- The head of `addRootSnake` always exists and starts at the origin. -/
theorem addRootSnake_head (l : List Snake) :
    ∃ s, (addRootSnake l).head? = some s ∧ s.x = 0 ∧ s.y = 0 := by
  cases l with
  | nil => exact ⟨_, rfl, rfl, rfl⟩
  | cons a as =>
    by_cases hx : a.x ≠ 0 ∨ a.y ≠ 0
    · exact ⟨rootSnake, by simp [addRootSnake, if_pos hx], rfl, rfl⟩
    · push_neg at hx
      exact ⟨a, by simp [addRootSnake, hx.1, hx.2], hx.1, hx.2⟩

/-- Coalesced form of `dispatchRemovals` without move detection. -/
theorem dispatchRemovals_false (oldStat : Int → Int) (postponed : List PostponedUpdate)
    (start count gi : Int) :
    dispatchRemovals false oldStat postponed start count gi =
      .ok ([.onRemoved start count], postponed) := by
  simp [dispatchRemovals]

/-- Coalesced form of `dispatchAdditions` without move detection. -/
theorem dispatchAdditions_false (newStat : Int → Int) (postponed : List PostponedUpdate)
    (start count gi : Int) :
    dispatchAdditions false newStat postponed start count gi =
      .ok ([.onInserted start count], postponed) := by
  simp [dispatchAdditions]

/-- C1.  Replay correctness fails on the code: on the move example of the
repository test suite itself (test_diff_util.cpp `BasicMove`), old list
`[(1,1),(2,2),(3,3)]` and new list `[(2,2),(1,1),(3,3)]`, the pipeline
with `detect_moves = true` emits the stream `[OnRemoved(1,1),
OnMoved(1,1), OnChanged(0,1), OnChanged(0,1)]`; replaying that stream on
a mutable copy of the old list leaves two cells, not the three items of
the new list, so no reading of the callbacks can reproduce the new list.
The root cause is that `CalculateDiff` stores each snake
(`snakes.push_back(*snake)`, diff_util.h line 201) before offsetting the
coordinates to the global frame (lines 205-206), so snakes found in
sub-ranges keep range-relative coordinates, contradicting the class
documentation (lines 16-17) and the offsetting comment (line 204). -/
theorem c1_replay_fails_on_basic_move :
    diffStream [(1,1),(2,2),(3,3)] [(2,2),(1,1),(3,3)] true =
      .ok [UpdateOp.onRemoved 1 1, UpdateOp.onMoved 1 1,
           UpdateOp.onChanged 0 1 0 1, UpdateOp.onChanged 0 1 0 0] ∧
    (replayStream 3 [UpdateOp.onRemoved 1 1, UpdateOp.onMoved 1 1,
        UpdateOp.onChanged 0 1 0 1, UpdateOp.onChanged 0 1 0 0]).length = 2 ∧
    ([(2,2),(1,1),(3,3)] : List (Int × Int)).length = 3 := by
  refine ⟨by decide, by decide, by decide⟩

/-- C9.  The contents-query precondition fails on the code: for old list
`[(5,5),(1,1)]` and new list `[(6,6),(1,1)]` the construction pass calls
`AreContentsTheSame(0, 0)` although `AreItemsTheSame(0, 0)` is false
(identities 5 and 6 differ).  The corrupted relative-coordinate snake
`(0,0,1)` makes `FindMatchingItems` treat the non-matching pair `(0,0)`
as a diagonal match pair, contradicting the documented contract of
`AreContentsTheSame` (diff_callback.h line 40). -/
theorem c9_contents_query_on_non_matching_pair :
    (calculateDiff (callbackOfLists [(5,5),(1,1)] [(6,6),(1,1)]) true).map
        (fun r => r.contentsQueries) = .ok [(1,1),(0,0)] ∧
    (callbackOfLists [(5,5),(1,1)] [(6,6),(1,1)]).areItemsTheSame 0 0 = false := by
  refine ⟨by decide, by decide⟩

/-- C3.  The position-conversion round trip fails on the code: for old
list `[(2,2),(1,1),(1,1)]` and new list `[(1,1),(3,3),(1,1)]`,
`ConvertOldPositionToNew(1) = 0`, which is not `NO_POSITION`, but
`ConvertNewPositionToOld(0) = 0 ≠ 1`: the corrupted relative-coordinate
snakes make the status-assignment pass overwrite one side of an earlier
counterpart pair, so the two packed status arrays are no longer
symmetric. -/
theorem c3_round_trip_fails :
    (calculateDiff (callbackOfLists [(2,2),(1,1),(1,1)] [(1,1),(3,3),(1,1)]) true).map
        (fun r => (convertOldPositionToNew r 1, convertNewPositionToOld r 0)) =
      .ok (.ok 0, .ok 0) ∧
    (0 : Int) ≠ NO_POSITION ∧ (0 : Int) ≠ 1 := by
  refine ⟨by decide, by decide, by decide⟩

/-- C10.  The dispatch-safety claim fails on the code: for old list
`[(2,2),(1,1),(1,1)]` and new list `[(1,1),(3,3),(3,3),(1,1)]` with
`detect_moves = true` the dispatch pass reaches the `default` branch of
the status switch (the `unknown flag` throw, diff_util.h lines 565-567):
a status word carrying a snake-interior flag is read inside a dispatch
gap, again because the stored snakes keep range-relative coordinates. -/
theorem c10_dispatch_reaches_unknown_flag :
    diffStream [(2,2),(1,1),(1,1)] [(1,1),(3,3),(3,3),(1,1)] true =
      .error .unknownFlag := by
  decide

/-- C2, counterexample.  With the default entry point (`detect_moves =
true`), the empty old list against the two distinct additions
`[(1,1),(2,2)]` produces two single-item `OnInserted(0,1)` callbacks,
not one coalesced `OnInserted(0,2)`. -/
theorem c2_counterexample :
    (calculateDiffDefault (callbackOfLists [] [(1,1),(2,2)])).bind dispatchUpdatesTo =
      .ok [UpdateOp.onInserted 0 1, UpdateOp.onInserted 0 1] ∧
    (Except.ok [UpdateOp.onInserted 0 1, UpdateOp.onInserted 0 1] :
        Except DiffError (List UpdateOp)) ≠ .ok [UpdateOp.onInserted 0 2] := by
  refine ⟨by decide, by decide⟩

/-- A sub-range that is empty in one dimension yields no snake
(diff_util.h line 268). -/
theorem diffPartial_empty (cb : DiffCallback) (startOld endOld startNew endNew kOffset : Int)
    (f b : Int → Int) (h : endOld - startOld < 1 ∨ endNew - startNew < 1) :
    diffPartial cb startOld endOld startNew endNew kOffset f b = .ok (none, f, b) := by
  simp only [diffPartial, if_pos h]

/-- A work stack holding one rectangle that is empty in a dimension
produces an empty snake list. -/
theorem calculateDiffLoop_single_empty (cb : DiffCallback) (kOffset : Int) (r : Range)
    (h : r.oldListEnd - r.oldListStart < 1 ∨ r.newListEnd - r.newListStart < 1)
    (fuel : Nat) (f b : Int → Int) :
    calculateDiffLoop cb kOffset (fuel + 1) [r] [] f b = .ok [] := by
  simp only [calculateDiffLoop, diffPartial_empty cb _ _ _ _ kOffset f b h]

/-- `CalculateDiff` on an input whose old or new list is empty finds no
snakes. -/
theorem calculateDiff_one_side_empty (cb : DiffCallback) (dm : Bool)
    (h : cb.getOldListSize < 1 ∨ cb.getNewListSize < 1) :
    calculateDiff cb dm = .ok (mkDiffResult cb [] dm) := by
  simp only [calculateDiff]
  have hfuel : 2 * (cb.getOldListSize + cb.getNewListSize).toNat + 4
      = (2 * (cb.getOldListSize + cb.getNewListSize).toNat + 3) + 1 := rfl
  rw [hfuel, calculateDiffLoop_single_empty cb _ _ (by simpa using h)]
  simp [Except.map, sortSnakes]

/-- The status pass over the lone root snake without move detection
leaves the all-zero state. -/
theorem findMatchingItems_root_false (cb : DiffCallback) (oldS newS : Int) :
    findMatchingItems cb [rootSnake] false oldS newS =
      { oldStat := fun _ => 0, newStat := fun _ => 0, queries := [] } := rfl

/-- C2, amended.  For every oracle with an empty old list and a new list
of size `n > 0`, `CalculateDiff` with `detect_moves = false` followed by
`DispatchUpdatesTo` emits exactly one callback, the coalesced
`OnInserted(0, n)`; symmetrically, old size `n > 0` and empty new list
yield exactly one `OnRemoved(0, n)`.  (With the default
`detect_moves = true` entry point the same totals are emitted as `n`
separate single-item callbacks instead, which is the counterexample to
the claim as stated.) -/
theorem c2_empty_side_coalesced (cb : DiffCallback) (n : Int) (hn : 0 < n) :
    (cb.getOldListSize = 0 → cb.getNewListSize = n →
      (calculateDiff cb false).bind dispatchUpdatesTo = .ok [.onInserted 0 n]) ∧
    (cb.getOldListSize = n → cb.getNewListSize = 0 →
      (calculateDiff cb false).bind dispatchUpdatesTo = .ok [.onRemoved 0 n]) := by
  constructor
  · intro h0 hn2
    rw [calculateDiff_one_side_empty cb false (Or.inl (by omega))]
    show dispatchUpdatesTo (mkDiffResult cb [] false) = _
    unfold dispatchUpdatesTo mkDiffResult
    simp only [sortSnakes, addRootSnake, findMatchingItems_root_false, h0, hn2,
      List.length_singleton]
    simp [dispatchUpdatesToLoop, rootSnake, hn, dispatchAdditions_false, changedOps]
  · intro hn2 h0
    rw [calculateDiff_one_side_empty cb false (Or.inr (by omega))]
    show dispatchUpdatesTo (mkDiffResult cb [] false) = _
    unfold dispatchUpdatesTo mkDiffResult
    simp only [sortSnakes, addRootSnake, findMatchingItems_root_false, h0, hn2,
      List.length_singleton]
    simp [dispatchUpdatesToLoop, rootSnake, hn, dispatchRemovals_false, changedOps]

/-- C2, witness for the amended theorem: old `[]`, new `[(1,1),(2,2)]`
with `detect_moves = false` gives the single coalesced `OnInserted(0,2)`,
and the mirrored input gives the single `OnRemoved(0,2)`. -/
theorem c2_empty_side_coalesced_witness :
    (0:Int) < 2 ∧
    (calculateDiff (callbackOfLists [] [(1,1),(2,2)]) false).bind dispatchUpdatesTo
      = .ok [.onInserted 0 2] ∧
    (calculateDiff (callbackOfLists [(1,1),(2,2)] []) false).bind dispatchUpdatesTo
      = .ok [.onRemoved 0 2] :=
  ⟨by norm_num,
    (c2_empty_side_coalesced (callbackOfLists [] [(1,1),(2,2)]) 2 (by norm_num)).1
      rfl rfl,
    (c2_empty_side_coalesced (callbackOfLists [(1,1),(2,2)] []) 2 (by norm_num)).2
      rfl rfl⟩

/-- C5, amended.  After construction the snake list is never empty and
its first element always starts at `x = 0, y = 0`: the zero root snake
`(0,0,0,false,false)` is synthesized and put first exactly when the
sorted snakes were empty or their first element did not start at the
origin; when the search already produced a first snake starting at the
origin, that snake (generally of nonzero size) stays first and need not
equal the zero root. -/
theorem c5_first_snake_starts_at_origin (cb : DiffCallback) (dm : Bool)
    (res : DiffResult) (h : calculateDiff cb dm = .ok res) :
    ∃ s, res.snakes.head? = some s ∧ s.x = 0 ∧ s.y = 0 := by
  obtain ⟨l, hl⟩ := (calculateDiff_fields cb dm res h).2.2.2
  rw [hl]
  exact addRootSnake_head l

/-- C5, witness for the amended theorem at a concrete input. -/
theorem c5_first_snake_starts_at_origin_witness :
    ∃ res, calculateDiff (callbackOfLists [(1,1)] [(2,2)]) true = .ok res ∧
      ∃ s, res.snakes.head? = some s ∧ s.x = 0 ∧ s.y = 0 := by
  have hok : (calculateDiff (callbackOfLists [(1,1)] [(2,2)]) true).toOption.isSome
      = true := by decide
  cases hres : calculateDiff (callbackOfLists [(1,1)] [(2,2)]) true with
  | error e => rw [hres] at hok; simp [Except.toOption] at hok
  | ok res => exact ⟨res, rfl, c5_first_snake_starts_at_origin _ true res hres⟩

/-- C5, counterexample.  Diffing the one-item list `[(1,1)]` against
itself makes the search return the full-cover snake `(0,0,1,false,true)`;
it starts at `(0,0)`, so `AddRootSnake` inserts nothing, and the first
element of the snake list after construction is that snake and not the
zero root `(0,0,0,false,false)`. -/
theorem c5_counterexample :
    (calculateDiff (callbackOfLists [(1,1)] [(1,1)]) true).map (fun r => r.snakes.head?) =
      .ok (some { x := 0, y := 0, size := 1, removal := false, reverse := true }) ∧
    ({ x := 0, y := 0, size := 1, removal := false, reverse := true } : Snake) ≠
      { x := 0, y := 0, size := 0, removal := false, reverse := false } := by
  refine ⟨by decide, by decide⟩

/-- Characterisation of `convertOldPositionToNew` against the stored
size. -/
theorem convertOldPositionToNew_spec (res : DiffResult) (i : Int) :
    (convertOldPositionToNew res i = .error .outOfRange ↔
      i < 0 ∨ i ≥ res.oldListSize) ∧
    (¬(i < 0 ∨ i ≥ res.oldListSize) →
      convertOldPositionToNew res i =
        .ok (if flagOf (res.oldItemStatuses i) = 0 then NO_POSITION
             else counterpartOf (res.oldItemStatuses i))) := by
  unfold convertOldPositionToNew
  by_cases hb : i < 0 ∨ i ≥ res.oldListSize
  · simp [hb]
  · simp only [if_neg hb]
    refine ⟨⟨fun hc => ?_, fun hc => absurd hc hb⟩, fun _ => ?_⟩
    · by_cases hz : flagOf (res.oldItemStatuses i) = 0 <;> simp [hz] at hc
    · by_cases hz : flagOf (res.oldItemStatuses i) = 0 <;> simp [hz]

/-- Characterisation of `convertNewPositionToOld` against the stored
size. -/
theorem convertNewPositionToOld_spec (res : DiffResult) (j : Int) :
    (convertNewPositionToOld res j = .error .outOfRange ↔
      j < 0 ∨ j ≥ res.newListSize) ∧
    (¬(j < 0 ∨ j ≥ res.newListSize) →
      convertNewPositionToOld res j =
        .ok (if flagOf (res.newItemStatuses j) = 0 then NO_POSITION
             else counterpartOf (res.newItemStatuses j))) := by
  unfold convertNewPositionToOld
  by_cases hb : j < 0 ∨ j ≥ res.newListSize
  · simp [hb]
  · simp only [if_neg hb]
    refine ⟨⟨fun hc => ?_, fun hc => absurd hc hb⟩, fun _ => ?_⟩
    · by_cases hz : flagOf (res.newItemStatuses j) = 0 <;> simp [hz] at hc
    · by_cases hz : flagOf (res.newItemStatuses j) = 0 <;> simp [hz]

/-- Without move detection, the dispatch loop of the source equals the
specification-side coalesced walk, threading the postponed-update list
through unchanged. -/
theorem dispatch_eq_coalesced (res : DiffResult) (hdm : res.detectMoves = false) :
    ∀ (n : Nat) (posOld posNew : Int) (postponed : List PostponedUpdate),
      dispatchUpdatesToLoop res n posOld posNew postponed =
        .ok (coalescedWalkLoop res n posOld posNew) := by
  intro n
  induction n with
  | zero => intro posOld posNew postponed; rfl
  | succ n ih =>
    intro posOld posNew postponed
    simp only [dispatchUpdatesToLoop, coalescedWalkLoop, hdm, dispatchRemovals_false,
      dispatchAdditions_false, ih]
    by_cases h1 : (res.snakes.getD n rootSnake).x + (res.snakes.getD n rootSnake).size
        < posOld
    · by_cases h2 : (res.snakes.getD n rootSnake).y + (res.snakes.getD n rootSnake).size
          < posNew
      · simp only [if_pos h1, if_pos h2]
      · simp only [if_pos h1, if_neg h2]
    · by_cases h2 : (res.snakes.getD n rootSnake).y + (res.snakes.getD n rootSnake).size
          < posNew
      · simp only [if_neg h1, if_pos h2]
      · simp only [if_neg h1, if_neg h2]

/-- Interior change emission contains no move operation. -/
theorem changedOps_noMove (oldStat : Int → Int) (sx sy : Int) :
    ∀ (k : Nat), ∀ op ∈ changedOps oldStat sx sy k, op.isMove = false := by
  intro k
  induction k with
  | zero => intro op hop; cases hop
  | succ k ih =>
    intro op hop
    simp only [changedOps, List.mem_append] at hop
    rcases hop with hop | hop
    · by_cases hz : flagOf (oldStat (sx + (k : Int))) = FLAG_CHANGED
      · rw [if_pos hz] at hop
        simp at hop
        subst hop
        rfl
      · rw [if_neg hz] at hop
        cases hop
    · exact ih op hop

/-- The coalesced walk contains no move operation. -/
theorem coalescedWalk_noMove (res : DiffResult) :
    ∀ (n : Nat) (posOld posNew : Int),
      ∀ op ∈ coalescedWalkLoop res n posOld posNew, op.isMove = false := by
  intro n
  induction n with
  | zero => intro posOld posNew op hop; cases hop
  | succ n ih =>
    intro posOld posNew op hop
    simp only [coalescedWalkLoop, List.mem_append] at hop
    rcases hop with ((h1 | h2) | h3) | h4
    · split at h1 <;> simp at h1
      subst h1; rfl
    · split at h2 <;> simp at h2
      subst h2; rfl
    · exact changedOps_noMove _ _ _ _ op h3
    · exact ih _ _ op h4

/-- C4.  No-move-detection fallback: for every oracle, a result computed
with `detect_moves = false` dispatches exactly the coalesced walk (one
`OnRemoved(start, count)` per removed gap, one `OnInserted(start, count)`
per added gap, plus the per-item changes), and that stream contains no
`OnMoved` callback. -/
theorem c4_no_move_detection_fallback (cb : DiffCallback) (res : DiffResult)
    (h : calculateDiff cb false = .ok res) :
    dispatchUpdatesTo res = .ok (coalescedWalk res) ∧
    ∀ op ∈ coalescedWalk res, op.isMove = false := by
  have hdm : res.detectMoves = false := (calculateDiff_fields cb false res h).2.2.1
  exact ⟨dispatch_eq_coalesced res hdm _ _ _ _, coalescedWalk_noMove res _ _ _⟩

/-- C4, witness at a concrete input: the move example `[(1,1),(2,2),(3,3)]`
against `[(2,2),(1,1),(3,3)]` diffed without move detection. -/
theorem c4_no_move_detection_fallback_witness :
    ∃ res, calculateDiff (callbackOfLists [(1,1),(2,2),(3,3)] [(2,2),(1,1),(3,3)]) false
        = .ok res ∧
      dispatchUpdatesTo res = .ok (coalescedWalk res) ∧
      ∀ op ∈ coalescedWalk res, op.isMove = false := by
  have hok : (calculateDiff (callbackOfLists [(1,1),(2,2),(3,3)] [(2,2),(1,1),(3,3)])
      false).toOption.isSome = true := by decide
  cases hres : calculateDiff (callbackOfLists [(1,1),(2,2),(3,3)] [(2,2),(1,1),(3,3)])
      false with
  | error e => rw [hres] at hok; simp [Except.toOption] at hok
  | ok res => exact ⟨res, rfl, c4_no_move_detection_fallback _ res hres⟩

/-- Filling an all-zero array with zeros changes nothing. -/
theorem fillRange_zero (lo hi : Int) :
    fillRange (fun _ => 0) lo hi 0 = fun _ => 0 := by
  funext j
  simp only [fillRange]
  split <;> rfl

/-- Packing leaves the flag in the low five bits. -/
theorem flagOf_pack (c f : Int) (h1 : 0 ≤ f) (h2 : f < 32) :
    flagOf (pack c f) = f := by
  simp only [flagOf, pack]
  omega

/-- On a diagonal of matches the forward slide from `(x, x)` runs to the
corner `(n, n)`. -/
theorem slideForwardGo_diag (cb : DiffCallback) (n : Int)
    (hdiag : ∀ i : Int, 0 ≤ i → i < n → cb.areItemsTheSame i i = true) :
    ∀ (fuel : Nat) (x : Int), 0 ≤ x → x ≤ n → fuel = (n - x).toNat →
      slideForwardGo cb 0 0 n n fuel x x = (n, n) := by
  intro fuel
  induction fuel with
  | zero =>
    intro x hx0 hxn hf
    have hxe : x = n := by omega
    subst hxe
    rfl
  | succ k ih =>
    intro x hx0 hxn hf
    have hxlt : x < n := by omega
    simp only [slideForwardGo]
    rw [if_pos ⟨hxlt, hxlt, by simpa using hdiag x hx0 hxlt⟩]
    exact ih (x + 1) (by omega) (by omega) (by omega)

/-- On a diagonal of matches the backward slide from `(x, x)` runs to the
origin. -/
theorem slideBackwardGo_diag (cb : DiffCallback) (n : Int)
    (hdiag : ∀ i : Int, 0 ≤ i → i < n → cb.areItemsTheSame i i = true) :
    ∀ (fuel : Nat) (x : Int), 0 ≤ x → x ≤ n → fuel = x.toNat →
      slideBackwardGo cb 0 0 fuel x x = (0, 0) := by
  intro fuel
  induction fuel with
  | zero =>
    intro x hx0 hxn hf
    have hxe : x = 0 := by omega
    subst hxe
    rfl
  | succ k ih =>
    intro x hx0 hxn hf
    have hxlt : 0 < x := by omega
    simp only [slideBackwardGo]
    rw [if_pos ⟨hxlt, hxlt, by simpa using hdiag (x - 1) (by omega) (by omega)⟩]
    exact ih (x - 1) (by omega) (by omega) (by omega)

/-- Forward pass at depth zero on an identity oracle: the single diagonal
slides from the origin to the corner and no snake is reported (the
overlap check is inactive because `delta` is even). -/
theorem forwardPass_identity (cb : DiffCallback) (n kOffset : Int) (hn : 1 ≤ n)
    (hdiag : ∀ i : Int, 0 ≤ i → i < n → cb.areItemsTheSame i i = true)
    (bwd : Int → Int) :
    forwardPass cb 0 0 n n 0 kOffset 0 false bwd [0] (fun _ => 0) =
      (none, upd (fun _ => 0) kOffset n) := by
  simp only [forwardPass]
  rw [if_pos (Or.inl (by norm_num : (0:Int) = -0))]
  have hs : slideForward cb 0 0 n n 0 (0 - 0) = (n, n) := by
    rw [show (0:Int) - 0 = 0 by norm_num]
    exact slideForwardGo_diag cb n hdiag _ 0 le_rfl (by omega) rfl
  simp only [hs]
  rw [if_neg (by simp)]
  simp only [forwardPass, add_zero]

/-- Backward pass at depth zero on an identity oracle: the single diagonal
slides back from the corner to the origin, the overlap check fires, and
the full-cover snake `(0, 0, n, false, true)` is returned. -/
theorem backwardPass_identity (cb : DiffCallback) (n kOffset : Int) (hn : 1 ≤ n)
    (hdiag : ∀ i : Int, 0 ≤ i → i < n → cb.areItemsTheSame i i = true)
    (fwd bwd : Int → Int) (hfwd : fwd kOffset = n) (hbwd : bwd (kOffset - 1) = n) :
    backwardPass cb 0 0 0 kOffset 0 false fwd [0] bwd =
      (some { x := 0, y := 0, size := n, removal := false, reverse := true },
        upd bwd kOffset 0) := by
  simp only [backwardPass, true_or, if_true]
  rw [show kOffset + ((0:Int) + 0) = kOffset from by ring]
  rw [hbwd]
  have hs : slideBackward cb 0 0 n (n - (0 + 0)) = (0, 0) := by
    rw [show n - ((0:Int) + 0) = n from by ring]
    exact slideBackwardGo_diag cb n hdiag _ n (by omega) le_rfl rfl
  simp only [hs]
  rw [if_pos ?hc]
  case hc =>
    refine ⟨by simp, ⟨by norm_num, by norm_num⟩, ?_⟩
    simp [upd, hfwd]
    omega
  simp [upd, hfwd]

/-- One depth-loop step whose forward pass finds nothing and whose
backward pass finds a snake. -/
theorem dLoop_step_found (cb : DiffCallback)
    (sO sN oSize nSize delta dLimit kOffset : Int) (checkInFwd : Bool)
    (m : Nat) (d : Nat) (fwd bwd : Int → Int) (s : Snake) (fwd2 bwd2 : Int → Int)
    (hd : (d : Int) ≤ dLimit)
    (hf : forwardPass cb sO sN oSize nSize delta kOffset (d : Int) checkInFwd bwd
      (kList d) fwd = (none, fwd2))
    (hb : backwardPass cb sO sN delta kOffset (d : Int) checkInFwd fwd2
      (kList d) bwd = (some s, bwd2)) :
    dLoop cb sO sN oSize nSize delta dLimit kOffset checkInFwd (m + 1) d fwd bwd =
      (some s, fwd2, bwd2) := by
  simp only [dLoop]
  rw [if_pos hd, hf]
  simp only [hb]

/-- `DiffPartial` on the full square of an identity oracle returns the
full-cover snake. -/
theorem diffPartial_identity (cb : DiffCallback) (n kOffset : Int) (hn : 1 ≤ n)
    (hdiag : ∀ i : Int, 0 ≤ i → i < n → cb.areItemsTheSame i i = true) :
    ∃ f2 b2, diffPartial cb 0 n 0 n kOffset (fun _ => 0) (fun _ => 0) =
      .ok (some { x := 0, y := 0, size := n, removal := false, reverse := true },
        f2, b2) := by
  simp only [diffPartial]
  rw [if_neg (by omega : ¬(n - 0 < 1 ∨ n - 0 < 1))]
  have hnn : n - 0 = n := by ring
  simp only [hnn]
  rw [show n - n = 0 from by ring]
  set D := (n + n + 1) / 2 with hD
  have hD1 : 1 ≤ D := by omega
  have hcheck : ((0:Int) % 2 != 0) = false := rfl
  rw [hcheck]
  simp only [add_zero]
  have hfz : fillRange (fun _ => (0:Int)) (kOffset - D - 1) (kOffset + D + 1) 0 =
      fun _ => 0 := fillRange_zero _ _
  rw [hfz]
  obtain ⟨m, hm⟩ : ∃ m, (D + 1).toNat = m + 1 := ⟨D.toNat, by omega⟩
  rw [hm]
  rw [dLoop_step_found cb 0 0 n n 0 D kOffset false m 0
    (fun _ => 0) (fillRange (fun _ => 0) (kOffset - D - 1) (kOffset + D + 1) n)
    { x := 0, y := 0, size := n, removal := false, reverse := true }
    (upd (fun _ => 0) kOffset n)
    (upd (fillRange (fun _ => 0) (kOffset - D - 1) (kOffset + D + 1) n) kOffset 0)
    (by omega)
    (by
      rw [show kList 0 = [0] from by decide, Nat.cast_zero]
      exact forwardPass_identity cb n kOffset hn hdiag _)
    (by
      rw [show kList 0 = [0] from by decide, Nat.cast_zero]
      refine backwardPass_identity cb n kOffset hn hdiag _ _ (by simp [upd]) ?_
      simp only [fillRange]
      rw [if_pos]
      constructor <;> omega)]
  exact ⟨_, _, rfl⟩

/-- Popping a rectangle that is empty in one dimension leaves the
accumulated snakes and arrays unchanged. -/
theorem calculateDiffLoop_cons_empty (cb : DiffCallback) (kOffset : Int) (fuel : Nat)
    (r : Range) (rest : List Range) (snakes : List Snake) (f b : Int → Int)
    (hr : r.oldListEnd - r.oldListStart < 1 ∨ r.newListEnd - r.newListStart < 1) :
    calculateDiffLoop cb kOffset (fuel + 1) (r :: rest) snakes f b =
      calculateDiffLoop cb kOffset fuel rest snakes f b := by
  simp only [calculateDiffLoop, diffPartial_empty cb _ _ _ _ kOffset f b hr]

/-- The work-stack loop on the full square of an identity oracle returns
exactly the full-cover snake. -/
theorem calculateDiffLoop_identity (cb : DiffCallback) (kOffset n : Int) (fuel : Nat)
    (hn : 1 ≤ n) (f2 b2 : Int → Int)
    (h : diffPartial cb 0 n 0 n kOffset (fun _ => 0) (fun _ => 0) =
      .ok (some { x := 0, y := 0, size := n, removal := false, reverse := true },
        f2, b2)) :
    calculateDiffLoop cb kOffset (fuel + 3)
      [{ oldListStart := 0, oldListEnd := n, newListStart := 0, newListEnd := n }] []
      (fun _ => 0) (fun _ => 0) =
      .ok [{ x := 0, y := 0, size := n, removal := false, reverse := true }] := by
  rw [show fuel + 3 = fuel + 2 + 1 from rfl]
  simp only [calculateDiffLoop]
  rw [h]
  simp only [if_pos (show (n:Int) > 0 from by omega), if_true, if_false,
    Bool.false_eq_true, List.nil_append, add_zero, zero_add]
  simp only [diffPartial_empty cb n n (n + 1) n kOffset f2 b2 (Or.inl (by omega))]
  simp only [diffPartial_empty cb 0 0 0 0 kOffset f2 b2 (Or.inl (by norm_num))]

/-- `CalculateDiff` on an identity oracle of positive size returns the
result built from the single full-cover snake. -/
theorem calculateDiff_identity (cb : DiffCallback) (dm : Bool)
    (hsize : cb.getOldListSize = cb.getNewListSize)
    (hdiag : ∀ i : Int, 0 ≤ i → i < cb.getOldListSize → cb.areItemsTheSame i i = true)
    (hn : 1 ≤ cb.getOldListSize) :
    calculateDiff cb dm = .ok (mkDiffResult cb
      [{ x := 0, y := 0, size := cb.getOldListSize, removal := false, reverse := true }]
      dm) := by
  obtain ⟨f2, b2, hdp⟩ := diffPartial_identity cb cb.getOldListSize
    (cb.getOldListSize + cb.getOldListSize +
      ((cb.getOldListSize - cb.getOldListSize).natAbs : Int)) hn hdiag
  simp only [calculateDiff, ← hsize]
  rw [show 2 * (cb.getOldListSize + cb.getOldListSize).toNat + 4
    = (2 * (cb.getOldListSize + cb.getOldListSize).toNat + 1) + 3 from rfl]
  rw [calculateDiffLoop_identity cb _ cb.getOldListSize _ hn f2 b2 hdp]
  simp only [Except.map, sortSnakes, insertSorted]

/-- On the full-cover snake the status pass degenerates to the snake-run
body: the two gap walks have nothing to do. -/
theorem findMatchingItems_identity (cb : DiffCallback) (dm : Bool) (n : Int) :
    findMatchingItems cb
      [{ x := 0, y := 0, size := n, removal := false, reverse := true }] dm n n =
      snakeBody cb 0 0 n.toNat
        { oldStat := fun _ => 0, newStat := fun _ => 0, queries := [] } := by
  cases dm with
  | false => simp [findMatchingItems, findMatchingItemsLoop]
  | true =>
    simp only [findMatchingItems, List.length_singleton, findMatchingItemsLoop,
      List.getD_cons_zero, if_true]
    rw [show ((0:Int) + n) = n from by ring]
    unfold findAdditionsLoop findRemovalsLoop
    rw [show ((n:Int) - n).toNat = 0 from by omega]
    simp [findAdditionsLoopGo, findRemovalsLoopGo, findMatchingItemsLoop]

/-- The snake-run body of an identity diff only writes `NOT_CHANGED`
statuses into the old-side array. -/
theorem snakeBody_oldStat_flags (cb : DiffCallback) (n : Int)
    (hc : ∀ i : Int, 0 ≤ i → i < n → cb.areContentsTheSame i i = true) :
    ∀ (k : Nat), (k : Int) ≤ n → ∀ p,
      (snakeBody cb 0 0 k
        { oldStat := fun _ => 0, newStat := fun _ => 0, queries := [] }).oldStat p = 0 ∨
      ∃ c, (snakeBody cb 0 0 k
        { oldStat := fun _ => 0, newStat := fun _ => 0, queries := [] }).oldStat p =
          pack c FLAG_NOT_CHANGED := by
  intro k
  induction k with
  | zero => intro _ p; left; rfl
  | succ k ih =>
    intro hk p
    unfold snakeBody at ih ⊢
    rw [List.range_succ, List.foldl_append, List.foldl_cons, List.foldl_nil]
    have hcontents : cb.areContentsTheSame (0 + (k:Int)) (0 + (k:Int)) = true := by
      rw [zero_add]
      exact hc k (by omega) (by omega)
    simp only [hcontents, if_true, upd]
    by_cases hp : p = 0 + (k:Int)
    · rw [if_pos hp]
      exact Or.inr ⟨0 + (k:Int), rfl⟩
    · rw [if_neg hp]
      exact ih (by omega) p

/-- A status array holding only zeros and `NOT_CHANGED` words emits no
interior change. -/
theorem changedOps_nil (stat : Int → Int)
    (hf : ∀ p, stat p = 0 ∨ ∃ c, stat p = pack c FLAG_NOT_CHANGED) (sx sy : Int) :
    ∀ k, changedOps stat sx sy k = [] := by
  intro k
  induction k with
  | zero => rfl
  | succ k ih =>
    simp only [changedOps, ih, List.append_nil]
    rw [if_neg ?_]
    rcases hf (sx + (k:Int)) with h0 | ⟨c, hcpack⟩
    · rw [h0]
      decide
    · rw [hcpack, flagOf_pack c FLAG_NOT_CHANGED (by decide) (by decide)]
      decide

/-- Dispatch of the identity result emits no callback. -/
theorem dispatch_identity (cb : DiffCallback) (dm : Bool)
    (hsize : cb.getOldListSize = cb.getNewListSize)
    (hc : ∀ i : Int, 0 ≤ i → i < cb.getOldListSize → cb.areContentsTheSame i i = true)
    (hn : 1 ≤ cb.getOldListSize) :
    dispatchUpdatesTo (mkDiffResult cb
      [{ x := 0, y := 0, size := cb.getOldListSize, removal := false, reverse := true }]
      dm) = .ok [] := by
  unfold dispatchUpdatesTo mkDiffResult
  have haddroot : addRootSnake
      [{ x := 0, y := 0, size := cb.getOldListSize, removal := false, reverse := true }]
      = [{ x := 0, y := 0, size := cb.getOldListSize, removal := false, reverse := true }] := by
    simp [addRootSnake]
  rw [haddroot, ← hsize]
  simp only [findMatchingItems_identity cb dm cb.getOldListSize]
  have h1 : ¬((0:Int) + cb.getOldListSize < cb.getOldListSize) := by omega
  simp only [List.length_singleton, dispatchUpdatesToLoop, List.getD_cons_zero,
    if_neg h1,
    changedOps_nil _ (snakeBody_oldStat_flags cb cb.getOldListSize hc
      cb.getOldListSize.toNat (by omega)) 0 0]
  rfl

/-- C6.  Identity property: for every oracle whose two sizes agree and
whose diagonal pairs `(i, i)` match in identity and contents,
`CalculateDiff` (with either value of `detect_moves`) followed by
`DispatchUpdatesTo` emits zero callbacks. -/
theorem c6_identity_zero_callbacks (cb : DiffCallback) (dm : Bool)
    (hsize : cb.getOldListSize = cb.getNewListSize)
    (hitems : ∀ i : Int, 0 ≤ i → i < cb.getOldListSize → cb.areItemsTheSame i i = true)
    (hcontents : ∀ i : Int, 0 ≤ i → i < cb.getOldListSize →
      cb.areContentsTheSame i i = true) :
    ∃ res, calculateDiff cb dm = .ok res ∧ dispatchUpdatesTo res = .ok [] := by
  by_cases hn : 1 ≤ cb.getOldListSize
  · exact ⟨_, calculateDiff_identity cb dm hsize hitems hn,
      dispatch_identity cb dm hsize hcontents hn⟩
  · refine ⟨_, calculateDiff_one_side_empty cb dm (Or.inl (by omega)), ?_⟩
    unfold dispatchUpdatesTo mkDiffResult
    have h1 : ¬((0:Int) + 0 < cb.getOldListSize) := by omega
    have h2 : ¬((0:Int) + 0 < cb.getNewListSize) := by rw [← hsize]; omega
    simp only [sortSnakes, addRootSnake, List.length_singleton, dispatchUpdatesToLoop,
      List.getD_cons_zero, rootSnake, if_neg h1, if_neg h2]
    rfl

/-- C6, witness at a concrete input: the three-item list
`[(1,1),(2,2),(3,3)]` diffed against itself with move detection. -/
theorem c6_identity_zero_callbacks_witness :
    ∃ res, calculateDiff (callbackOfLists [(1,1),(2,2),(3,3)] [(1,1),(2,2),(3,3)]) true
        = .ok res ∧ dispatchUpdatesTo res = .ok [] :=
  c6_identity_zero_callbacks (callbackOfLists [(1,1),(2,2),(3,3)] [(1,1),(2,2),(3,3)])
    true rfl (by decide) (by decide)

/-- C7.  Bounds-checked position conversion: for any result of
`CalculateDiff`, `ConvertOldPositionToNew(i)` raises `OutOfRange` exactly
when `i < 0` or `i ≥` the old list size captured from the callback at
construction time; otherwise it returns `NO_POSITION` exactly when the
flag bits of the status word of `i` are all zero, and the unpacked
counterpart index otherwise.  `ConvertNewPositionToOld` is symmetric
against the captured new list size. -/
theorem c7_bounds_checked_conversion (cb : DiffCallback) (dm : Bool)
    (res : DiffResult) (h : calculateDiff cb dm = .ok res) (i j : Int) :
    ((convertOldPositionToNew res i = .error .outOfRange ↔
        i < 0 ∨ i ≥ cb.getOldListSize) ∧
      (¬(i < 0 ∨ i ≥ cb.getOldListSize) →
        convertOldPositionToNew res i =
          .ok (if flagOf (res.oldItemStatuses i) = 0 then NO_POSITION
               else counterpartOf (res.oldItemStatuses i)))) ∧
    ((convertNewPositionToOld res j = .error .outOfRange ↔
        j < 0 ∨ j ≥ cb.getNewListSize) ∧
      (¬(j < 0 ∨ j ≥ cb.getNewListSize) →
        convertNewPositionToOld res j =
          .ok (if flagOf (res.newItemStatuses j) = 0 then NO_POSITION
               else counterpartOf (res.newItemStatuses j)))) := by
  obtain ⟨hold, hnew, -, -⟩ := calculateDiff_fields cb dm res h
  rw [← hold, ← hnew]
  exact ⟨convertOldPositionToNew_spec res i, convertNewPositionToOld_spec res j⟩

/-- C7, witness at a concrete input: old list `[(1,1),(2,2)]`, new list
`[(1,1)]`, probing the in-range index `1` and the out-of-range index
`5`. -/
theorem c7_bounds_checked_conversion_witness :
    ∃ res, calculateDiff (callbackOfLists [(1,1),(2,2)] [(1,1)]) true = .ok res ∧
      ((convertOldPositionToNew res 5 = .error .outOfRange ↔
          (5:Int) < 0 ∨
            (5:Int) ≥ (callbackOfLists [(1,1),(2,2)] [(1,1)]).getOldListSize) ∧
        convertOldPositionToNew res 1 =
          .ok (if flagOf (res.oldItemStatuses 1) = 0 then NO_POSITION
               else counterpartOf (res.oldItemStatuses 1))) := by
  have hok : (calculateDiff (callbackOfLists [(1,1),(2,2)] [(1,1)]) true).toOption.isSome
      = true := by decide
  cases hres : calculateDiff (callbackOfLists [(1,1),(2,2)] [(1,1)]) true with
  | error e => rw [hres] at hok; simp [Except.toOption] at hok
  | ok res =>
    exact ⟨res, rfl,
      (c7_bounds_checked_conversion _ true res hres 5 0).1.1,
      (c7_bounds_checked_conversion _ true res hres 1 0).1.2 (by decide)⟩

/-!
Basic facts about the edit-graph path predicates.
-/

/-- Points of a forward path stay inside the rectangle. -/
theorem pathF_bounds (cb : DiffCallback) (sO sN n m : Int) (hn : 0 ≤ n) (hm : 0 ≤ m)
    (d : Nat) (x y : Int) (h : PathF cb sO sN n m d x y) :
    0 ≤ x ∧ x ≤ n ∧ 0 ≤ y ∧ y ≤ m := by
  induction h with
  | start => exact ⟨le_refl 0, hn, le_refl 0, hm⟩
  | diag d x y h hx0 hx hy0 hy hmt ih => omega
  | step_right d x y h hx0 hx ih => omega
  | step_down d x y h hy0 hy ih => omega

/-- Points of a backward path stay inside the rectangle. -/
theorem pathB_bounds (cb : DiffCallback) (sO sN n m : Int) (hn : 0 ≤ n) (hm : 0 ≤ m)
    (d : Nat) (x y : Int) (h : PathB cb sO sN n m d x y) :
    0 ≤ x ∧ x ≤ n ∧ 0 ≤ y ∧ y ≤ m := by
  induction h with
  | corner => exact ⟨hn, le_refl n, hm, le_refl m⟩
  | diag d x y h hx0 hx hy0 hy hmt ih => omega
  | step_right d x y h hx0 hx ih => omega
  | step_down d x y h hy0 hy ih => omega

/-- A forward path with `d` non-diagonal edges splits them into `r`
horizontal and `t` vertical ones, fixing the parity and range of its
diagonal. -/
theorem pathF_count (cb : DiffCallback) (sO sN n m : Int)
    (d : Nat) (x y : Int) (h : PathF cb sO sN n m d x y) :
    ∃ r t : Nat, d = r + t ∧ x - y = (r : Int) - (t : Int) := by
  induction h with
  | start => exact ⟨0, 0, rfl, by norm_num⟩
  | diag d x y h hx0 hx hy0 hy hmt ih =>
    obtain ⟨r, t, h1, h2⟩ := ih
    exact ⟨r, t, h1, by omega⟩
  | step_right d x y h hx0 hx ih =>
    obtain ⟨r, t, h1, h2⟩ := ih
    exact ⟨r + 1, t, by omega, by push_cast; omega⟩
  | step_down d x y h hy0 hy ih =>
    obtain ⟨r, t, h1, h2⟩ := ih
    exact ⟨r, t + 1, by omega, by push_cast; omega⟩

/-- Dual edge count for backward paths. -/
theorem pathB_count (cb : DiffCallback) (sO sN n m : Int)
    (d : Nat) (x y : Int) (h : PathB cb sO sN n m d x y) :
    ∃ r t : Nat, d = r + t ∧ (n - m) - (x - y) = (r : Int) - (t : Int) := by
  induction h with
  | corner => exact ⟨0, 0, rfl, by norm_num⟩
  | diag d x y h hx0 hx hy0 hy hmt ih =>
    obtain ⟨r, t, h1, h2⟩ := ih
    exact ⟨r, t, h1, by omega⟩
  | step_right d x y h hx0 hx ih =>
    obtain ⟨r, t, h1, h2⟩ := ih
    exact ⟨r + 1, t, by omega, by push_cast; omega⟩
  | step_down d x y h hy0 hy ih =>
    obtain ⟨r, t, h1, h2⟩ := ih
    exact ⟨r, t + 1, by omega, by push_cast; omega⟩

/-- Horizontal prefix of the staircase path. -/
theorem pathF_rights (cb : DiffCallback) (sO sN n m : Int) (j : Nat)
    (hj : (j : Int) ≤ n) : PathF cb sO sN n m j (j : Int) 0 := by
  induction j with
  | zero => exact .start
  | succ i ih =>
    have h := ih (by push_cast at hj ⊢; omega)
    have h2 := PathF.step_right i (i : Int) 0 h (by positivity)
      (by push_cast at hj ⊢; omega)
    push_cast
    exact h2

/-- The staircase path: all removals followed by all insertions reach the
corner with `n + m` non-diagonal edges. -/
theorem pathF_staircase (cb : DiffCallback) (sO sN n m : Int) (hn : 0 ≤ n)
    (hm : 0 ≤ m) : PathF cb sO sN n m (n.toNat + m.toNat) n m := by
  have hdowns : ∀ j : Nat, (j : Int) ≤ m → PathF cb sO sN n m (n.toNat + j) n (j : Int) := by
    intro j
    induction j with
    | zero =>
      intro _
      have := pathF_rights cb sO sN n m n.toNat (by omega)
      simpa [Int.toNat_of_nonneg hn] using this
    | succ i ih =>
      intro hj
      have h := ih (by push_cast at hj ⊢; omega)
      have h2 := PathF.step_down (n.toNat + i) n (i : Int) h (by positivity)
        (by push_cast at hj ⊢; omega)
      have h3 : n.toNat + i + 1 = n.toNat + (i + 1) := by omega
      rw [h3] at h2
      push_cast
      exact h2
  have := hdowns m.toNat (by omega)
  simpa [Int.toNat_of_nonneg hm] using this

/-- Splitting a forward path after `c` of its non-diagonal edges yields a
midpoint lying on a forward path of cost `c` and a co-path carrying the
remaining cost. -/
theorem pathF_split (cb : DiffCallback) (sO sN n m : Int) :
    ∀ (d : Nat) (x y : Int), PathF cb sO sN n m d x y →
      ∀ (e : Nat), PathB cb sO sN n m e x y →
        ∀ c : Nat, c ≤ d → ∃ xm ym : Int, PathF cb sO sN n m c xm ym ∧
          PathB cb sO sN n m (d - c + e) xm ym := by
  intro d x y h
  induction h with
  | start =>
    intro e hb c hc
    have hc0 : c = 0 := by omega
    subst hc0
    exact ⟨0, 0, .start, by simpa using hb⟩
  | diag d x y h hx0 hx hy0 hy hmt ih =>
    intro e hb c hc
    exact ih e (PathB.diag e x y hb hx0 hx hy0 hy hmt) c hc
  | step_right d x y h hx0 hx ih =>
    intro e hb c hc
    rcases Nat.lt_or_ge c (d + 1) with hlt | hge
    · obtain ⟨xm, ym, h1, h2⟩ := ih (e + 1) (PathB.step_right e x y hb hx0 hx) c (by omega)
      have heq : d - c + (e + 1) = d + 1 - c + e := by omega
      rw [heq] at h2
      exact ⟨xm, ym, h1, h2⟩
    · have hc2 : c = d + 1 := by omega
      subst hc2
      have heq : d + 1 - (d + 1) + e = e := by omega
      exact ⟨x + 1, y, PathF.step_right d x y h hx0 hx, by rw [heq]; exact hb⟩
  | step_down d x y h hy0 hy ih =>
    intro e hb c hc
    rcases Nat.lt_or_ge c (d + 1) with hlt | hge
    · obtain ⟨xm, ym, h1, h2⟩ := ih (e + 1) (PathB.step_down e x y hb hy0 hy) c (by omega)
      have heq : d - c + (e + 1) = d + 1 - c + e := by omega
      rw [heq] at h2
      exact ⟨xm, ym, h1, h2⟩
    · have hc2 : c = d + 1 := by omega
      subst hc2
      have heq : d + 1 - (d + 1) + e = e := by omega
      exact ⟨x, y + 1, PathF.step_down d x y h hy0 hy, by rw [heq]; exact hb⟩

/-- A zero-cost forward path is an initial run of matching diagonal
cells. -/
theorem pathF_zero (cb : DiffCallback) (sO sN n m : Int) :
    ∀ (d : Nat) (x y : Int), PathF cb sO sN n m d x y → d = 0 →
      x = y ∧ 0 ≤ x ∧ diagCells cb sO sN n m 0 x 0 := by
  intro d x y h
  induction h with
  | start =>
    intro _
    exact ⟨rfl, le_refl 0, fun i h1 h2 => absurd h2 (by omega)⟩
  | diag d x y h hx0 hx hy0 hy hmt ih =>
    intro hd
    obtain ⟨hxy, hx0n, hcells⟩ := ih hd
    subst hxy
    refine ⟨rfl, by omega, fun i h1 h2 => ?_⟩
    rcases lt_or_ge i x with hi | hi
    · exact hcells i h1 hi
    · have hix : i = x := by omega
      subst hix
      refine ⟨hx0, hx, by omega, by omega, ?_⟩
      have h3 : i - 0 = i := by ring
      rw [h3]
      exact hmt
  | step_right d x y h hx0 hx ih => intro hd; omega
  | step_down d x y h hy0 hy ih => intro hd; omega

/-- Decomposition of a positive-cost forward path: a trailing run of
matching diagonal cells preceded by a final horizontal or vertical edge
taken from a path of one smaller cost. -/
theorem pathF_succ (cb : DiffCallback) (sO sN n m : Int) :
    ∀ (e : Nat) (x y : Int), PathF cb sO sN n m e x y → ∀ d : Nat, e = d + 1 →
      ∃ x0 y0 : Int, x - x0 = y - y0 ∧ x0 ≤ x ∧
        diagCells cb sO sN n m x0 x (x - y) ∧
        ((0 ≤ x0 - 1 ∧ x0 - 1 < n ∧ PathF cb sO sN n m d (x0 - 1) y0) ∨
          (0 ≤ y0 - 1 ∧ y0 - 1 < m ∧ PathF cb sO sN n m d x0 (y0 - 1))) := by
  intro e x y h
  induction h with
  | start => intro d hd; omega
  | diag dd x y h hx0 hx hy0 hy hmt ih =>
    intro d hd
    obtain ⟨x0, y0, h1, h2, hcells, hlast⟩ := ih d hd
    refine ⟨x0, y0, by omega, by omega, fun i hi1 hi2 => ?_, hlast⟩
    have hk : x + 1 - (y + 1) = x - y := by ring
    rw [hk]
    rcases lt_or_ge i x with hlt | hge
    · exact hcells i hi1 hlt
    · have hix : i = x := by omega
      subst hix
      refine ⟨hx0, hx, by omega, by omega, ?_⟩
      have h3 : i - (i - y) = y := by ring
      rw [h3]
      exact hmt
  | step_right dd x y h hx0 hx ih =>
    intro d hd
    have hdd : dd = d := by omega
    subst hdd
    refine ⟨x + 1, y, by ring, le_refl _, fun i hi1 hi2 => absurd hi2 (by omega), ?_⟩
    left
    have h3 : x + 1 - 1 = x := by ring
    rw [h3]
    exact ⟨hx0, hx, h⟩
  | step_down dd x y h hy0 hy ih =>
    intro d hd
    have hdd : dd = d := by omega
    subst hdd
    refine ⟨x, y + 1, by ring, le_refl _, fun i hi1 hi2 => absurd hi2 (by omega), ?_⟩
    right
    have h3 : y + 1 - 1 = y := by ring
    rw [h3]
    exact ⟨hy0, hy, h⟩

/-- A zero-cost backward path is a run of matching diagonal cells ending
at the corner. -/
theorem pathB_zero (cb : DiffCallback) (sO sN n m : Int) :
    ∀ (d : Nat) (x y : Int), PathB cb sO sN n m d x y → d = 0 →
      x - y = n - m ∧ x ≤ n ∧ diagCells cb sO sN n m x n (n - m) := by
  intro d x y h
  induction h with
  | corner =>
    intro _
    exact ⟨by ring, le_refl n, fun i h1 h2 => absurd h2 (by omega)⟩
  | diag d x y h hx0 hx hy0 hy hmt ih =>
    intro hd
    obtain ⟨hxy, hxn, hcells⟩ := ih hd
    refine ⟨by omega, by omega, fun i hi1 hi2 => ?_⟩
    rcases lt_or_ge i (x + 1) with hlt | hge
    · have hix : i = x := by omega
      subst hix
      refine ⟨hx0, hx, by omega, by omega, ?_⟩
      have h3 : i - (n - m) = y := by omega
      rw [h3]
      exact hmt
    · exact hcells i hge hi2
  | step_right d x y h hx0 hx ih => intro hd; omega
  | step_down d x y h hy0 hy ih => intro hd; omega

/-- Decomposition of a positive-cost backward path: a leading run of
matching diagonal cells followed by a first horizontal or vertical edge
into a co-path of one smaller cost. -/
theorem pathB_succ (cb : DiffCallback) (sO sN n m : Int) :
    ∀ (e : Nat) (x y : Int), PathB cb sO sN n m e x y → ∀ d : Nat, e = d + 1 →
      ∃ x0 y0 : Int, x0 - x = y0 - y ∧ x ≤ x0 ∧
        diagCells cb sO sN n m x x0 (x - y) ∧
        ((0 ≤ x0 ∧ x0 < n ∧ PathB cb sO sN n m d (x0 + 1) y0) ∨
          (0 ≤ y0 ∧ y0 < m ∧ PathB cb sO sN n m d x0 (y0 + 1))) := by
  intro e x y h
  induction h with
  | corner => intro d hd; omega
  | diag dd x y h hx0 hx hy0 hy hmt ih =>
    intro d hd
    obtain ⟨x0, y0, h1, h2, hcells, hlast⟩ := ih d hd
    refine ⟨x0, y0, by omega, by omega, fun i hi1 hi2 => ?_, hlast⟩
    rcases lt_or_ge i (x + 1) with hlt | hge
    · have hix : i = x := by omega
      subst hix
      refine ⟨hx0, hx, by omega, by omega, ?_⟩
      have h3 : i - (i - y) = y := by ring
      rw [h3]
      exact hmt
    · have hk : x - y = x + 1 - (y + 1) := by ring
      rw [hk]
      exact hcells i hge hi2
  | step_right dd x y h hx0 hx ih =>
    intro d hd
    have hdd : dd = d := by omega
    subst hdd
    exact ⟨x, y, by ring, le_refl _, fun i hi1 hi2 => absurd hi2 (by omega),
      Or.inl ⟨hx0, hx, h⟩⟩
  | step_down dd x y h hy0 hy ih =>
    intro d hd
    have hdd : dd = d := by omega
    subst hdd
    exact ⟨x, y, by ring, le_refl _, fun i hi1 hi2 => absurd hi2 (by omega),
      Or.inr ⟨hy0, hy, h⟩⟩

/-- The diagonal list written as a single map over `List.range`. -/
theorem kList_eq (d : Nat) :
    kList d = (List.range (d + 1)).map fun j : Nat => -(d : Int) + 2 * (j : Int) := by
  show List.map _ ((List.range (d + 1)).flatMap fun a => [(a : Int)]) = _
  have h : ∀ l : List Nat, (l.flatMap fun a => [(a : Int)]) = List.map Int.ofNat l := by
    intro l
    induction l with
    | nil => rfl
    | cons a t ih =>
      simp only [List.flatMap_cons, List.map_cons, ih, List.singleton_append]
      rfl
  rw [h, List.map_map]
  rfl

/-- Membership in the diagonal list of a depth. -/
theorem kList_mem (d : Nat) (k : Int) :
    k ∈ kList d ↔ ∃ j : Nat, j ≤ d ∧ k = -(d : Int) + 2 * j := by
  rw [kList_eq]
  simp only [List.mem_map, List.mem_range]
  constructor
  · rintro ⟨j, hj, hk⟩
    exact ⟨j, by omega, hk.symm⟩
  · rintro ⟨j, hj, hk⟩
    exact ⟨j, by omega, hk.symm⟩

/-- The diagonal list is strictly increasing. -/
theorem kList_sorted (d : Nat) : (kList d).Pairwise (· < ·) := by
  rw [kList_eq]
  refine List.Pairwise.map _ ?_ (List.pairwise_lt_range (d + 1))
  intro a b hab
  dsimp only
  omega

/-!
Monotonicity and domination facts about the diagonal slides.
-/

/-- A forward slide never moves `x` backwards. -/
theorem slideForwardGo_fst_ge (cb : DiffCallback) (sO sN n m : Int) :
    ∀ (fuel : Nat) (x y : Int), x ≤ (slideForwardGo cb sO sN n m fuel x y).1 := by
  intro fuel
  induction fuel with
  | zero => intro x y; exact le_refl x
  | succ f ih =>
    intro x y
    simp only [slideForwardGo]
    split
    · exact le_trans (by omega) (ih (x + 1) (y + 1))
    · exact le_refl x

/-- A forward slide keeps the diagonal. -/
theorem slideForwardGo_sub (cb : DiffCallback) (sO sN n m : Int) :
    ∀ (fuel : Nat) (x y : Int),
      (slideForwardGo cb sO sN n m fuel x y).1 - (slideForwardGo cb sO sN n m fuel x y).2
        = x - y := by
  intro fuel
  induction fuel with
  | zero => intro x y; rfl
  | succ f ih =>
    intro x y
    simp only [slideForwardGo]
    split
    · rw [ih (x + 1) (y + 1)]; ring
    · rfl

/-- A forward slide keeps `x` at most `n`. -/
theorem slideForwardGo_fst_le (cb : DiffCallback) (sO sN n m : Int) :
    ∀ (fuel : Nat) (x y : Int), x ≤ n → (slideForwardGo cb sO sN n m fuel x y).1 ≤ n := by
  intro fuel
  induction fuel with
  | zero => intro x y hx; exact hx
  | succ f ih =>
    intro x y hx
    simp only [slideForwardGo]
    split
    · next hc => exact ih (x + 1) (y + 1) (by omega)
    · exact hx

/-- If a forward slide moved, the cell just before its end point
matched. -/
theorem slideForwardGo_last (cb : DiffCallback) (sO sN n m : Int) :
    ∀ (fuel : Nat) (x y : Int), x < (slideForwardGo cb sO sN n m fuel x y).1 →
      cb.areItemsTheSame (sO + ((slideForwardGo cb sO sN n m fuel x y).1 - 1))
        (sN + ((slideForwardGo cb sO sN n m fuel x y).1 - 1 - (x - y))) = true := by
  intro fuel
  induction fuel with
  | zero => intro x y h; exact absurd h (by simp [slideForwardGo])
  | succ f ih =>
    intro x y h
    simp only [slideForwardGo] at h ⊢
    by_cases hc : x < n ∧ y < m ∧ cb.areItemsTheSame (sO + x) (sN + y) = true
    · rw [if_pos hc] at h ⊢
      rcases lt_or_ge (x + 1) ((slideForwardGo cb sO sN n m f (x + 1) (y + 1)).1) with h2 | h2
      · have h3 := ih (x + 1) (y + 1) h2
        have h4 : (slideForwardGo cb sO sN n m f (x + 1) (y + 1)).1 - 1 - (x + 1 - (y + 1))
            = (slideForwardGo cb sO sN n m f (x + 1) (y + 1)).1 - 1 - (x - y) := by ring
        rw [h4] at h3
        exact h3
      · have h5 : (slideForwardGo cb sO sN n m f (x + 1) (y + 1)).1 = x + 1 := by
          have := slideForwardGo_fst_ge cb sO sN n m f (x + 1) (y + 1)
          omega
        rw [h5]
        have h6 : x + 1 - 1 = x := by ring
        rw [h6]
        have h7 : x - (x - y) = y := by ring
        rw [h7]
        exact hc.2.2
    · rw [if_neg hc] at h
      omega

/-- Domination of a forward slide: if every cell between the start and a
target on the same diagonal matches, the slide reaches the target. -/
theorem slideForwardGo_dom (cb : DiffCallback) (sO sN n m : Int) (k xt : Int)
    (hxt : xt ≤ n) :
    ∀ (fuel : Nat) (x y : Int), x - y = k → n ≤ x + fuel →
      diagCells cb sO sN n m x xt k →
      xt ≤ (slideForwardGo cb sO sN n m fuel x y).1 := by
  intro fuel
  induction fuel with
  | zero =>
    intro x y hk hfuel hcells
    simp only [slideForwardGo]
    omega
  | succ f ih =>
    intro x y hk hfuel hcells
    rcases le_or_lt xt x with hge | hlt
    · exact le_trans hge (slideForwardGo_fst_ge cb sO sN n m (f + 1) x y)
    · obtain ⟨h0, h1, h2, h3, h4⟩ := hcells x (le_refl x) hlt
      have hy : x - k = y := by omega
      rw [hy] at h3 h4
      simp only [slideForwardGo]
      rw [if_pos ⟨h1, h3, h4⟩]
      refine ih (x + 1) (y + 1) (by omega) (by omega) ?_
      intro i hi1 hi2
      exact hcells i (by omega) hi2

/-- A backward slide never moves `x` forwards. -/
theorem slideBackwardGo_fst_le (cb : DiffCallback) (sO sN : Int) :
    ∀ (fuel : Nat) (x y : Int), (slideBackwardGo cb sO sN fuel x y).1 ≤ x := by
  intro fuel
  induction fuel with
  | zero => intro x y; exact le_refl x
  | succ f ih =>
    intro x y
    simp only [slideBackwardGo]
    split
    · exact le_trans (ih (x - 1) (y - 1)) (by omega)
    · exact le_refl x

/-- A backward slide keeps the diagonal. -/
theorem slideBackwardGo_sub (cb : DiffCallback) (sO sN : Int) :
    ∀ (fuel : Nat) (x y : Int),
      (slideBackwardGo cb sO sN fuel x y).1 - (slideBackwardGo cb sO sN fuel x y).2
        = x - y := by
  intro fuel
  induction fuel with
  | zero => intro x y; rfl
  | succ f ih =>
    intro x y
    simp only [slideBackwardGo]
    split
    · rw [ih (x - 1) (y - 1)]; ring
    · rfl

/-- A backward slide that does not move is stuck: its guard fails. -/
theorem slideBackwardGo_stuck (cb : DiffCallback) (sO sN : Int) (f : Nat) (x y : Int)
    (h : (slideBackwardGo cb sO sN (f + 1) x y).1 = x) :
    ¬(x > 0 ∧ y > 0 ∧ cb.areItemsTheSame (sO + x - 1) (sN + y - 1) = true) := by
  intro hc
  rw [show slideBackwardGo cb sO sN (f + 1) x y
      = slideBackwardGo cb sO sN f (x - 1) (y - 1) by simp only [slideBackwardGo, if_pos hc]]
    at h
  have := slideBackwardGo_fst_le cb sO sN f (x - 1) (y - 1)
  omega

/-- Domination of a backward slide: if every cell between a target and the
start on the same diagonal matches, the slide descends to the target. -/
theorem slideBackwardGo_dom (cb : DiffCallback) (sO sN n m : Int) (k xt : Int) :
    ∀ (fuel : Nat) (x y : Int), x - y = k → x ≤ xt + fuel →
      diagCells cb sO sN n m xt x k →
      (slideBackwardGo cb sO sN fuel x y).1 ≤ xt := by
  intro fuel
  induction fuel with
  | zero =>
    intro x y hk hfuel hcells
    simp only [slideBackwardGo]
    omega
  | succ f ih =>
    intro x y hk hfuel hcells
    rcases le_or_lt x xt with hge | hlt
    · exact le_trans (slideBackwardGo_fst_le cb sO sN (f + 1) x y) hge
    · obtain ⟨h0, h1, h2, h3, h4⟩ := hcells (x - 1) (by omega) (by omega)
      have hy : x - 1 - k = y - 1 := by omega
      rw [hy] at h3 h4
      simp only [slideBackwardGo]
      have hg : x > 0 ∧ y > 0 ∧ cb.areItemsTheSame (sO + x - 1) (sN + y - 1) = true := by
        refine ⟨by omega, by omega, ?_⟩
        have e1 : sO + x - 1 = sO + (x - 1) := by ring
        have e2 : sN + y - 1 = sN + (y - 1) := by ring
        rw [e1, e2]
        exact h4
      rw [if_pos hg]
      refine ih (x - 1) (y - 1) (by omega) (by omega) ?_
      intro i hi1 hi2
      exact hcells i hi1 (by omega)

/-- Facts about the value written by one forward iteration at diagonal
`k` of depth `e + 1`, abstracted over the chosen predecessor `xpre` and
removal flag `rem`: the value dominates every depth-`(e + 1)` forward
path on `k`, keeps the clean lower bounds, and the flag-refined bounds
hold. -/
theorem forwardVal_facts (cb : DiffCallback) (sO sN n m ko : Int) (e : Nat)
    (hn : 1 ≤ n) (hm : 1 ≤ m) (k t0 : Int)
    (hk1 : -((e : Int) + 1) ≤ k) (hk2 : k ≤ (e : Int) + 1)
    (hkp : k = -((e : Int) + 1) + 2 * t0)
    (f : Int → Int)
    (hprev : ∀ j : Int, -(e : Int) ≤ j → j ≤ (e : Int) →
      (∃ t : Int, j = -(e : Int) + 2 * t) →
      domF cb sO sN n m e ko j f ∧ cleanF ko j f)
    (xpre : Int) (rem : Bool)
    (hge1 : k ≠ -((e : Int) + 1) → f (ko + k - 1) + 1 ≤ xpre)
    (hge2 : k ≠ (e : Int) + 1 → f (ko + k + 1) ≤ xpre)
    (hremk : rem = true → k ≠ -((e : Int) + 1))
    (hnonk : rem = false → k ≠ (e : Int) + 1) :
    (∀ px py : Int, PathF cb sO sN n m (e + 1) px py → px - py = k →
      px ≤ (slideForward cb sO sN n m xpre (xpre - k)).1) ∧
    max 0 k ≤ (slideForward cb sO sN n m xpre (xpre - k)).1 ∧
    (rem = true → 1 ≤ (slideForward cb sO sN n m xpre (xpre - k)).1 ∧
      0 ≤ (slideForward cb sO sN n m xpre (xpre - k)).1 - k) ∧
    (rem = false → 0 ≤ (slideForward cb sO sN n m xpre (xpre - k)).1 ∧
      1 ≤ (slideForward cb sO sN n m xpre (xpre - k)).1 - k) := by
  have hslide_ge : xpre ≤ (slideForward cb sO sN n m xpre (xpre - k)).1 := by
    simp only [slideForward]
    exact slideForwardGo_fst_ge cb sO sN n m _ xpre (xpre - k)
  have hlow : max 0 k ≤ xpre := by
    by_cases hkk : k = -((e : Int) + 1)
    · have h2 := hge2 (by omega)
      have hwin := hprev (k + 1) (by omega) (by omega) ⟨t0, by omega⟩
      have hc := hwin.2
      have hidx : ko + (k + 1) = ko + k + 1 := by ring
      rw [cleanF, hidx] at hc
      omega
    · have h1 := hge1 hkk
      have hwin := hprev (k - 1) (by omega) (by omega) ⟨t0 - 1, by omega⟩
      have hc := hwin.2
      have hidx : ko + (k - 1) = ko + k - 1 := by ring
      rw [cleanF, hidx] at hc
      omega
  refine ⟨?_, by omega, ?_, ?_⟩
  · intro px py hpath hdiag
    obtain ⟨x0, y0, hrun1, hrun2, hcells, hlast⟩ :=
      pathF_succ cb sO sN n m (e + 1) px py hpath e rfl
    have hx0y0 : x0 - y0 = k := by omega
    have hxpre_ge : x0 ≤ xpre := by
      rcases hlast with ⟨hb1, hb2, hsub⟩ | ⟨hb1, hb2, hsub⟩
      · have hkne : k ≠ -((e : Int) + 1) := by
          intro hkk
          obtain ⟨r, t, hrt1, hrt2⟩ := pathF_count cb sO sN n m e (x0 - 1) y0 hsub
          omega
        have hwin := hprev (k - 1) (by omega) (by omega) ⟨t0 - 1, by omega⟩
        have hd := hwin.1 (x0 - 1) y0 hsub (by omega)
        have hidx : ko + (k - 1) = ko + k - 1 := by ring
        rw [hidx] at hd
        have := hge1 hkne
        omega
      · have hkne : k ≠ (e : Int) + 1 := by
          intro hkk
          obtain ⟨r, t, hrt1, hrt2⟩ := pathF_count cb sO sN n m e x0 (y0 - 1) hsub
          omega
        have hwin := hprev (k + 1) (by omega) (by omega) ⟨t0, by omega⟩
        have hd := hwin.1 x0 (y0 - 1) hsub (by omega)
        have hidx : ko + (k + 1) = ko + k + 1 := by ring
        rw [hidx] at hd
        have := hge2 hkne
        omega
    have hpxn : px ≤ n :=
      (pathF_bounds cb sO sN n m (by omega) (by omega) (e + 1) px py hpath).2.1
    rw [hdiag] at hcells
    simp only [slideForward]
    refine slideForwardGo_dom cb sO sN n m k px hpxn _ xpre (xpre - k) (by ring) ?_ ?_
    · have := Int.self_le_toNat (n - xpre)
      omega
    · intro i hi1 hi2
      exact hcells i (by omega) hi2
  · intro hrem
    have hkne := hremk hrem
    have h1 := hge1 hkne
    have hwin := hprev (k - 1) (by omega) (by omega) ⟨t0 - 1, by omega⟩
    have hc := hwin.2
    have hidx : ko + (k - 1) = ko + k - 1 := by ring
    rw [cleanF, hidx] at hc
    omega
  · intro hrem
    have hkne := hnonk hrem
    have h2 := hge2 hkne
    have hwin := hprev (k + 1) (by omega) (by omega) ⟨t0, by omega⟩
    have hc := hwin.2
    have hidx : ko + (k + 1) = ko + k + 1 := by ring
    rw [cleanF, hidx] at hc
    omega

/-- One-step unfolding of the forward pass with its let-bindings
inlined. -/
theorem forwardPass_cons (cb : DiffCallback) (sO sN n m delta ko d : Int)
    (cif : Bool) (bwd : Int → Int) (k : Int) (ks : List Int) (f : Int → Int) :
    forwardPass cb sO sN n m delta ko d cif bwd (k :: ks) f =
      (if k = -d ∨ (k ≠ d ∧ f (ko + k - 1) < f (ko + k + 1)) then
        (if cif = true ∧ (delta - d + 1 ≤ k ∧ k ≤ delta + d - 1) ∧
            bwd (ko + k) ≤ upd f (ko + k)
              (slideForward cb sO sN n m (f (ko + k + 1)) (f (ko + k + 1) - k)).1
              (ko + k) then
          (some { x := bwd (ko + k), y := bwd (ko + k) - k,
                  size := upd f (ko + k)
                      (slideForward cb sO sN n m (f (ko + k + 1))
                        (f (ko + k + 1) - k)).1 (ko + k) - bwd (ko + k),
                  removal := false, reverse := false },
            upd f (ko + k)
              (slideForward cb sO sN n m (f (ko + k + 1)) (f (ko + k + 1) - k)).1)
        else
          forwardPass cb sO sN n m delta ko d cif bwd ks
            (upd f (ko + k)
              (slideForward cb sO sN n m (f (ko + k + 1)) (f (ko + k + 1) - k)).1))
      else
        (if cif = true ∧ (delta - d + 1 ≤ k ∧ k ≤ delta + d - 1) ∧
            bwd (ko + k) ≤ upd f (ko + k)
              (slideForward cb sO sN n m (f (ko + k - 1) + 1)
                (f (ko + k - 1) + 1 - k)).1 (ko + k) then
          (some { x := bwd (ko + k), y := bwd (ko + k) - k,
                  size := upd f (ko + k)
                      (slideForward cb sO sN n m (f (ko + k - 1) + 1)
                        (f (ko + k - 1) + 1 - k)).1 (ko + k) - bwd (ko + k),
                  removal := true, reverse := false },
            upd f (ko + k)
              (slideForward cb sO sN n m (f (ko + k - 1) + 1)
                (f (ko + k - 1) + 1 - k)).1)
        else
          forwardPass cb sO sN n m delta ko d cif bwd ks
            (upd f (ko + k)
              (slideForward cb sO sN n m (f (ko + k - 1) + 1)
                (f (ko + k - 1) + 1 - k)).1))) := by
  by_cases hbr : k = -d ∨ (k ≠ d ∧ f (ko + k - 1) < f (ko + k + 1))
  · rw [if_pos hbr]
    simp only [forwardPass, if_pos hbr]
  · rw [if_neg hbr]
    simp only [forwardPass, if_neg hbr]

/-- Specification of the tail of a forward pass after the predecessor of
the head diagonal has been resolved to `xpre` with removal flag `rem`. -/
theorem forwardPass_spec_aux (cb : DiffCallback) (sO sN n m delta ko : Int) (e : Nat)
    (cif : Bool) (bwd : Int → Int) (hn : 1 ≤ n) (hm : 1 ≤ m)
    (hodd : cif = true → ∃ t : Int, delta = 2 * t + 1)
    (hbw : ∀ j : Int, delta - (e : Int) ≤ j → j ≤ delta + (e : Int) →
      (∃ t : Int, j = delta - (e : Int) + 2 * t) → cleanB n m ko j bwd)
    (k t0 : Int) (hk1 : -((e : Int) + 1) ≤ k) (hk2 : k ≤ (e : Int) + 1)
    (hkp : k = -((e : Int) + 1) + 2 * t0)
    (ks : List Int) (hhead : ∀ k2 ∈ ks, k < k2)
    (f : Int → Int)
    (hprev : ∀ j : Int, -(e : Int) ≤ j → j ≤ (e : Int) →
      (∃ t : Int, j = -(e : Int) + 2 * t) →
      domF cb sO sN n m e ko j f ∧ cleanF ko j f)
    (xpre : Int) (rem : Bool)
    (hge1 : k ≠ -((e : Int) + 1) → f (ko + k - 1) + 1 ≤ xpre)
    (hge2 : k ≠ (e : Int) + 1 → f (ko + k + 1) ≤ xpre)
    (hremk : rem = true → k ≠ -((e : Int) + 1))
    (hnonk : rem = false → k ≠ (e : Int) + 1)
    (ih : ∀ f2 : Int → Int,
      (∀ j : Int, -(e : Int) ≤ j → j ≤ (e : Int) →
        (∃ t : Int, j = -(e : Int) + 2 * t) →
        domF cb sO sN n m e ko j f2 ∧ cleanF ko j f2) →
      (∀ s g2, forwardPass cb sO sN n m delta ko ((e : Int) + 1) cif bwd ks f2
          = (some s, g2) → snakeGood n m s) ∧
      (∀ g2, forwardPass cb sO sN n m delta ko ((e : Int) + 1) cif bwd ks f2
          = (none, g2) →
        (∀ j : Int, (∀ k2 ∈ ks, j ≠ ko + k2) → g2 j = f2 j) ∧
        (∀ k2 ∈ ks, domF cb sO sN n m (e + 1) ko k2 g2 ∧ cleanF ko k2 g2 ∧
          ¬(cif = true ∧
            (delta - ((e : Int) + 1) + 1 ≤ k2 ∧ k2 ≤ delta + ((e : Int) + 1) - 1) ∧
            bwd (ko + k2) ≤ g2 (ko + k2))))) :
    (∀ s f2,
      (if cif = true ∧
          (delta - ((e : Int) + 1) + 1 ≤ k ∧ k ≤ delta + ((e : Int) + 1) - 1) ∧
          bwd (ko + k) ≤ upd f (ko + k)
            (slideForward cb sO sN n m xpre (xpre - k)).1 (ko + k) then
        (some { x := bwd (ko + k), y := bwd (ko + k) - k,
                size := upd f (ko + k)
                    (slideForward cb sO sN n m xpre (xpre - k)).1 (ko + k)
                  - bwd (ko + k),
                removal := rem, reverse := false },
          upd f (ko + k) (slideForward cb sO sN n m xpre (xpre - k)).1)
      else
        forwardPass cb sO sN n m delta ko ((e : Int) + 1) cif bwd ks
          (upd f (ko + k) (slideForward cb sO sN n m xpre (xpre - k)).1))
        = (some s, f2) → snakeGood n m s) ∧
    (∀ f2,
      (if cif = true ∧
          (delta - ((e : Int) + 1) + 1 ≤ k ∧ k ≤ delta + ((e : Int) + 1) - 1) ∧
          bwd (ko + k) ≤ upd f (ko + k)
            (slideForward cb sO sN n m xpre (xpre - k)).1 (ko + k) then
        (some { x := bwd (ko + k), y := bwd (ko + k) - k,
                size := upd f (ko + k)
                    (slideForward cb sO sN n m xpre (xpre - k)).1 (ko + k)
                  - bwd (ko + k),
                removal := rem, reverse := false },
          upd f (ko + k) (slideForward cb sO sN n m xpre (xpre - k)).1)
      else
        forwardPass cb sO sN n m delta ko ((e : Int) + 1) cif bwd ks
          (upd f (ko + k) (slideForward cb sO sN n m xpre (xpre - k)).1))
        = (none, f2) →
      (∀ j : Int, (∀ k2 ∈ k :: ks, j ≠ ko + k2) → f2 j = f j) ∧
      (∀ k2 ∈ k :: ks, domF cb sO sN n m (e + 1) ko k2 f2 ∧ cleanF ko k2 f2 ∧
        ¬(cif = true ∧
          (delta - ((e : Int) + 1) + 1 ≤ k2 ∧ k2 ≤ delta + ((e : Int) + 1) - 1) ∧
          bwd (ko + k2) ≤ f2 (ko + k2)))) := by
  obtain ⟨hA, hB, hC, hD⟩ := forwardVal_facts cb sO sN n m ko e hn hm k t0 hk1 hk2 hkp
    f hprev xpre rem hge1 hge2 hremk hnonk
  set V := (slideForward cb sO sN n m xpre (xpre - k)).1 with hV
  have hupd_self : upd f (ko + k) V (ko + k) = V := by simp [upd]
  have hwin2 : ∀ j : Int, -(e : Int) ≤ j → j ≤ (e : Int) →
      (∃ t : Int, j = -(e : Int) + 2 * t) →
      domF cb sO sN n m e ko j (upd f (ko + k) V) ∧ cleanF ko j (upd f (ko + k) V) := by
    intro j hj1 hj2 hjp
    obtain ⟨tj, htj⟩ := hjp
    have hne : ko + j ≠ ko + k := by omega
    have heq : upd f (ko + k) V (ko + j) = f (ko + j) := by simp [upd, hne]
    have hw := hprev j hj1 hj2 ⟨tj, htj⟩
    constructor
    · intro x y hp hd
      rw [heq]
      exact hw.1 x y hp hd
    · show max 0 j ≤ upd f (ko + k) V (ko + j)
      rw [heq]
      exact hw.2
  by_cases hchk : cif = true ∧
      (delta - ((e : Int) + 1) + 1 ≤ k ∧ k ≤ delta + ((e : Int) + 1) - 1) ∧
      bwd (ko + k) ≤ upd f (ko + k) V (ko + k)
  · rw [if_pos hchk]
    constructor
    · intro s f2 heq
      injection heq with h1 h2
      injection h1 with hs2
      rw [← hs2]
      obtain ⟨hcif, ⟨hband1, hband2⟩, hge⟩ := hchk
      rw [hupd_self] at hge
      obtain ⟨u, hu⟩ := hodd hcif
      have hclb : cleanB n m ko k bwd :=
        hbw k (by omega) (by omega) ⟨t0 - u - 1, by omega⟩
      have hclb2 : bwd (ko + k) ≤ min n (m + k) := hclb
      refine ⟨?_, ?_, ?_, ?_, ?_, ?_, ?_⟩
      · show 0 ≤ upd f (ko + k) V (ko + k) - bwd (ko + k)
        rw [hupd_self]
        omega
      · show bwd (ko + k) ≤ n
        omega
      · show bwd (ko + k) - k ≤ m
        omega
      · show 0 ≤ bwd (ko + k) + (upd f (ko + k) V (ko + k) - bwd (ko + k))
        rw [hupd_self]
        omega
      · show 0 ≤ bwd (ko + k) - k + (upd f (ko + k) V (ko + k) - bwd (ko + k))
        rw [hupd_self]
        omega
      · intro _
        constructor
        · intro hr
          show 1 ≤ bwd (ko + k) + (upd f (ko + k) V (ko + k) - bwd (ko + k))
          rw [hupd_self]
          have := (hC hr).1
          omega
        · intro hr
          show 1 ≤ bwd (ko + k) - k + (upd f (ko + k) V (ko + k) - bwd (ko + k))
          rw [hupd_self]
          have := (hD hr).2
          omega
      · intro habs
        exact absurd habs (by simp)
    · intro f2 heq
      exact absurd heq (by simp)
  · rw [if_neg hchk]
    have hih := ih (upd f (ko + k) V) hwin2
    constructor
    · exact hih.1
    · intro f2 heq
      obtain ⟨hagree, hfacts2⟩ := hih.2 f2 heq
      have hpos : f2 (ko + k) = V := by
        rw [hagree (ko + k) (fun k2 hk2m => by have := hhead k2 hk2m; omega), hupd_self]
      constructor
      · intro j hj
        rw [hagree j (fun k2 h2 => hj k2 (List.mem_cons_of_mem k h2))]
        have hne : j ≠ ko + k := hj k (List.mem_cons_self k ks)
        simp [upd, hne]
      · intro k2 hk2m
        rcases List.mem_cons.mp hk2m with rfl | h2
        · refine ⟨?_, ?_, ?_⟩
          · intro x y hp hd
            rw [hpos]
            exact hA x y hp hd
          · show max 0 k2 ≤ f2 (ko + k2)
            rw [hpos]
            omega
          · intro hcontra
            refine hchk ⟨hcontra.1, hcontra.2.1, ?_⟩
            rw [hupd_self, ← hpos]
            exact hcontra.2.2
        · exact hfacts2 k2 h2

/-- Full specification of one forward pass at depth `e + 1`: a returned
snake satisfies the geometric bounds `snakeGood`, and a completed pass
leaves an array that dominates every depth-`(e + 1)` forward path, keeps
the clean lower bounds, touches only its own diagonals, and records that
every evaluated overlap check failed. -/
theorem forwardPass_spec (cb : DiffCallback) (sO sN n m delta ko : Int) (e : Nat)
    (cif : Bool) (bwd : Int → Int) (hn : 1 ≤ n) (hm : 1 ≤ m)
    (hodd : cif = true → ∃ t : Int, delta = 2 * t + 1)
    (hbw : ∀ j : Int, delta - (e : Int) ≤ j → j ≤ delta + (e : Int) →
      (∃ t : Int, j = delta - (e : Int) + 2 * t) → cleanB n m ko j bwd) :
    ∀ (ks : List Int) (f : Int → Int),
      (∀ k ∈ ks, -((e : Int) + 1) ≤ k ∧ k ≤ (e : Int) + 1 ∧
        ∃ t : Int, k = -((e : Int) + 1) + 2 * t) →
      ks.Pairwise (· < ·) →
      (∀ j : Int, -(e : Int) ≤ j → j ≤ (e : Int) →
        (∃ t : Int, j = -(e : Int) + 2 * t) →
        domF cb sO sN n m e ko j f ∧ cleanF ko j f) →
      (∀ s f2, forwardPass cb sO sN n m delta ko ((e : Int) + 1) cif bwd ks f
          = (some s, f2) → snakeGood n m s) ∧
      (∀ f2, forwardPass cb sO sN n m delta ko ((e : Int) + 1) cif bwd ks f
          = (none, f2) →
        (∀ j : Int, (∀ k ∈ ks, j ≠ ko + k) → f2 j = f j) ∧
        (∀ k ∈ ks, domF cb sO sN n m (e + 1) ko k f2 ∧ cleanF ko k f2 ∧
          ¬(cif = true ∧
            (delta - ((e : Int) + 1) + 1 ≤ k ∧ k ≤ delta + ((e : Int) + 1) - 1) ∧
            bwd (ko + k) ≤ f2 (ko + k)))) := by
  intro ks
  induction ks with
  | nil =>
    intro f hks hpair hprev
    constructor
    · intro s f2 h
      exact absurd h (by simp [forwardPass])
    · intro f2 h
      have hf2 : f = f2 := by simpa [forwardPass] using h
      subst hf2
      exact ⟨fun j _ => rfl, fun k hk => absurd hk (List.not_mem_nil k)⟩
  | cons k rest ih =>
    intro f hks hpair hprev
    obtain ⟨hk1, hk2, t0, hkp⟩ := hks k (List.mem_cons_self k rest)
    have hksrest := fun k2 h2 => hks k2 (List.mem_cons_of_mem k h2)
    rw [List.pairwise_cons] at hpair
    obtain ⟨hhead, hptail⟩ := hpair
    have hih := fun (f2 : Int → Int) hw => ih f2 hksrest hptail hw
    rw [forwardPass_cons]
    by_cases hbr : k = -((e : Int) + 1) ∨
        (k ≠ (e : Int) + 1 ∧ f (ko + k - 1) < f (ko + k + 1))
    · rw [if_pos hbr]
      refine forwardPass_spec_aux cb sO sN n m delta ko e cif bwd hn hm hodd hbw
        k t0 hk1 hk2 hkp rest hhead f hprev (f (ko + k + 1)) false ?_ ?_ ?_ ?_ hih
      · intro hkne
        rcases hbr with h | ⟨h1, h2⟩
        · exact absurd h hkne
        · omega
      · intro _
        exact le_refl _
      · intro h
        exact absurd h (by decide)
      · intro _
        rcases hbr with h | ⟨h1, h2⟩
        · rw [h]
          intro hkk
          omega
        · exact h1
    · rw [if_neg hbr]
      push_neg at hbr
      refine forwardPass_spec_aux cb sO sN n m delta ko e cif bwd hn hm hodd hbw
        k t0 hk1 hk2 hkp rest hhead f hprev (f (ko + k - 1) + 1) true ?_ ?_ ?_ ?_ hih
      · intro _
        exact le_refl _
      · intro hkne
        have := hbr.2 hkne
        omega
      · intro _
        exact hbr.1
      · intro h
        exact absurd h (by decide)

/-- Facts about the value written by one backward iteration at diagonal
`q` of depth `e + 1`, abstracted over the chosen successor `xpre` and
removal flag `rem`: the value minorises every depth-`(e + 1)` co-path on
`q`, keeps the clean upper bounds, and the flag-refined bounds hold. -/
theorem backwardVal_facts (cb : DiffCallback) (sO sN n m delta ko : Int) (e : Nat)
    (hn : 1 ≤ n) (hm : 1 ≤ m) (hdnm : delta = n - m) (q t0 : Int)
    (hq1 : delta - ((e : Int) + 1) ≤ q) (hq2 : q ≤ delta + (e : Int) + 1)
    (hqp : q = delta - ((e : Int) + 1) + 2 * t0)
    (b : Int → Int)
    (hprev : ∀ j : Int, delta - (e : Int) ≤ j → j ≤ delta + (e : Int) →
      (∃ t : Int, j = delta - (e : Int) + 2 * t) →
      domB cb sO sN n m e ko j b ∧ cleanB n m ko j b)
    (xpre : Int) (rem : Bool)
    (hle1 : q ≠ delta + (e : Int) + 1 → xpre ≤ b (ko + q + 1) - 1)
    (hle2 : q ≠ delta - ((e : Int) + 1) → xpre ≤ b (ko + q - 1))
    (hremk : rem = true → q ≠ delta + (e : Int) + 1)
    (hnonk : rem = false → q ≠ delta - ((e : Int) + 1)) :
    (∀ px py : Int, PathB cb sO sN n m (e + 1) px py → px - py = q →
      (slideBackward cb sO sN xpre (xpre - q)).1 ≤ px) ∧
    (slideBackward cb sO sN xpre (xpre - q)).1 ≤ min n (m + q) ∧
    (rem = true → (slideBackward cb sO sN xpre (xpre - q)).1 ≤ n - 1) ∧
    (rem = false → (slideBackward cb sO sN xpre (xpre - q)).1 - q ≤ m - 1) := by
  have hslide_le : (slideBackward cb sO sN xpre (xpre - q)).1 ≤ xpre := by
    simp only [slideBackward]
    exact slideBackwardGo_fst_le cb sO sN _ xpre (xpre - q)
  have hupp : xpre ≤ min n (m + q) := by
    by_cases hqq : q = delta - ((e : Int) + 1)
    · have h1 := hle1 (by omega)
      have hwin := hprev (q + 1) (by omega) (by omega) ⟨t0, by omega⟩
      have hc := hwin.2
      have hidx : ko + (q + 1) = ko + q + 1 := by ring
      rw [cleanB, hidx] at hc
      omega
    · have h2 := hle2 hqq
      have hwin := hprev (q - 1) (by omega) (by omega) ⟨t0 - 1, by omega⟩
      have hc := hwin.2
      have hidx : ko + (q - 1) = ko + q - 1 := by ring
      rw [cleanB, hidx] at hc
      omega
  refine ⟨?_, by omega, ?_, ?_⟩
  · intro px py hpath hdiag
    obtain ⟨x0, y0, hrun1, hrun2, hcells, hlast⟩ :=
      pathB_succ cb sO sN n m (e + 1) px py hpath e rfl
    have hx0y0 : x0 - y0 = q := by omega
    have hxpre_le : xpre ≤ x0 := by
      rcases hlast with ⟨hb1, hb2, hsub⟩ | ⟨hb1, hb2, hsub⟩
      · have hqne : q ≠ delta + (e : Int) + 1 := by
          intro hqq
          obtain ⟨r, t, hrt1, hrt2⟩ := pathB_count cb sO sN n m e (x0 + 1) y0 hsub
          omega
        have hwin := hprev (q + 1) (by omega) (by omega) ⟨t0, by omega⟩
        have hd := hwin.1 (x0 + 1) y0 hsub (by omega)
        have hidx : ko + (q + 1) = ko + q + 1 := by ring
        rw [hidx] at hd
        have := hle1 hqne
        omega
      · have hqne : q ≠ delta - ((e : Int) + 1) := by
          intro hqq
          obtain ⟨r, t, hrt1, hrt2⟩ := pathB_count cb sO sN n m e x0 (y0 + 1) hsub
          omega
        have hwin := hprev (q - 1) (by omega) (by omega) ⟨t0 - 1, by omega⟩
        have hd := hwin.1 x0 (y0 + 1) hsub (by omega)
        have hidx : ko + (q - 1) = ko + q - 1 := by ring
        rw [hidx] at hd
        have := hle2 hqne
        omega
    have hpx0 : 0 ≤ px :=
      (pathB_bounds cb sO sN n m (by omega) (by omega) (e + 1) px py hpath).1
    rw [hdiag] at hcells
    simp only [slideBackward]
    refine slideBackwardGo_dom cb sO sN n m q px _ xpre (xpre - q) (by ring) ?_ ?_
    · have := Int.self_le_toNat xpre
      omega
    · intro i hi1 hi2
      exact hcells i hi1 (by omega)
  · intro hrem
    have hqne := hremk hrem
    have h1 := hle1 hqne
    have hwin := hprev (q + 1) (by omega) (by omega) ⟨t0, by omega⟩
    have hc := hwin.2
    have hidx : ko + (q + 1) = ko + q + 1 := by ring
    rw [cleanB, hidx] at hc
    omega
  · intro hrem
    have hqne := hnonk hrem
    have h2 := hle2 hqne
    have hwin := hprev (q - 1) (by omega) (by omega) ⟨t0 - 1, by omega⟩
    have hc := hwin.2
    have hidx : ko + (q - 1) = ko + q - 1 := by ring
    rw [cleanB, hidx] at hc
    omega

/-- One-step unfolding of the backward pass with its let-bindings
inlined. -/
theorem backwardPass_cons (cb : DiffCallback) (sO sN delta ko d : Int)
    (cif : Bool) (fwd : Int → Int) (k : Int) (ks : List Int) (b : Int → Int) :
    backwardPass cb sO sN delta ko d cif fwd (k :: ks) b =
      (if k + delta = d + delta ∨ (k + delta ≠ -d + delta ∧
          b (ko + (k + delta) - 1) < b (ko + (k + delta) + 1)) then
        (if ¬(cif = true) ∧ (-d ≤ k + delta ∧ k + delta ≤ d) ∧
            upd b (ko + (k + delta))
              (slideBackward cb sO sN (b (ko + (k + delta) - 1))
                (b (ko + (k + delta) - 1) - (k + delta))).1 (ko + (k + delta))
              ≤ fwd (ko + (k + delta)) then
          (some { x := upd b (ko + (k + delta))
                    (slideBackward cb sO sN (b (ko + (k + delta) - 1))
                      (b (ko + (k + delta) - 1) - (k + delta))).1 (ko + (k + delta)),
                  y := upd b (ko + (k + delta))
                      (slideBackward cb sO sN (b (ko + (k + delta) - 1))
                        (b (ko + (k + delta) - 1) - (k + delta))).1 (ko + (k + delta))
                    - (k + delta),
                  size := fwd (ko + (k + delta)) - upd b (ko + (k + delta))
                      (slideBackward cb sO sN (b (ko + (k + delta) - 1))
                        (b (ko + (k + delta) - 1) - (k + delta))).1 (ko + (k + delta)),
                  removal := false, reverse := true },
            upd b (ko + (k + delta))
              (slideBackward cb sO sN (b (ko + (k + delta) - 1))
                (b (ko + (k + delta) - 1) - (k + delta))).1)
        else
          backwardPass cb sO sN delta ko d cif fwd ks
            (upd b (ko + (k + delta))
              (slideBackward cb sO sN (b (ko + (k + delta) - 1))
                (b (ko + (k + delta) - 1) - (k + delta))).1))
      else
        (if ¬(cif = true) ∧ (-d ≤ k + delta ∧ k + delta ≤ d) ∧
            upd b (ko + (k + delta))
              (slideBackward cb sO sN (b (ko + (k + delta) + 1) - 1)
                (b (ko + (k + delta) + 1) - 1 - (k + delta))).1 (ko + (k + delta))
              ≤ fwd (ko + (k + delta)) then
          (some { x := upd b (ko + (k + delta))
                    (slideBackward cb sO sN (b (ko + (k + delta) + 1) - 1)
                      (b (ko + (k + delta) + 1) - 1 - (k + delta))).1 (ko + (k + delta)),
                  y := upd b (ko + (k + delta))
                      (slideBackward cb sO sN (b (ko + (k + delta) + 1) - 1)
                        (b (ko + (k + delta) + 1) - 1 - (k + delta))).1 (ko + (k + delta))
                    - (k + delta),
                  size := fwd (ko + (k + delta)) - upd b (ko + (k + delta))
                      (slideBackward cb sO sN (b (ko + (k + delta) + 1) - 1)
                        (b (ko + (k + delta) + 1) - 1 - (k + delta))).1 (ko + (k + delta)),
                  removal := true, reverse := true },
            upd b (ko + (k + delta))
              (slideBackward cb sO sN (b (ko + (k + delta) + 1) - 1)
                (b (ko + (k + delta) + 1) - 1 - (k + delta))).1)
        else
          backwardPass cb sO sN delta ko d cif fwd ks
            (upd b (ko + (k + delta))
              (slideBackward cb sO sN (b (ko + (k + delta) + 1) - 1)
                (b (ko + (k + delta) + 1) - 1 - (k + delta))).1))) := by
  by_cases hbr : k + delta = d + delta ∨ (k + delta ≠ -d + delta ∧
      b (ko + (k + delta) - 1) < b (ko + (k + delta) + 1))
  · rw [if_pos hbr]
    simp only [backwardPass, if_pos hbr]
  · rw [if_neg hbr]
    simp only [backwardPass, if_neg hbr]

/-- Specification of the tail of a backward pass after the successor of
the head diagonal has been resolved to `xpre` with removal flag `rem`. -/
theorem backwardPass_spec_aux (cb : DiffCallback) (sO sN n m delta ko : Int) (e : Nat)
    (cif : Bool) (fwd : Int → Int) (hn : 1 ≤ n) (hm : 1 ≤ m) (hdnm : delta = n - m)
    (heven : cif = false → ∃ t : Int, delta = 2 * t)
    (hfw : ∀ j : Int, -((e : Int) + 1) ≤ j → j ≤ (e : Int) + 1 →
      (∃ t : Int, j = -((e : Int) + 1) + 2 * t) → cleanF ko j fwd)
    (k t0 : Int) (hq1 : delta - ((e : Int) + 1) ≤ k + delta)
    (hq2 : k + delta ≤ delta + (e : Int) + 1)
    (hqp : k + delta = delta - ((e : Int) + 1) + 2 * t0)
    (ks : List Int) (hhead : ∀ k2 ∈ ks, k < k2)
    (b : Int → Int)
    (hprev : ∀ j : Int, delta - (e : Int) ≤ j → j ≤ delta + (e : Int) →
      (∃ t : Int, j = delta - (e : Int) + 2 * t) →
      domB cb sO sN n m e ko j b ∧ cleanB n m ko j b)
    (xpre : Int) (rem : Bool)
    (hle1 : k + delta ≠ delta + (e : Int) + 1 → xpre ≤ b (ko + (k + delta) + 1) - 1)
    (hle2 : k + delta ≠ delta - ((e : Int) + 1) → xpre ≤ b (ko + (k + delta) - 1))
    (hremk : rem = true → k + delta ≠ delta + (e : Int) + 1)
    (hnonk : rem = false → k + delta ≠ delta - ((e : Int) + 1))
    (ih : ∀ b2 : Int → Int,
      (∀ j : Int, delta - (e : Int) ≤ j → j ≤ delta + (e : Int) →
        (∃ t : Int, j = delta - (e : Int) + 2 * t) →
        domB cb sO sN n m e ko j b2 ∧ cleanB n m ko j b2) →
      (∀ s g2, backwardPass cb sO sN delta ko ((e : Int) + 1) cif fwd ks b2
          = (some s, g2) → snakeGood n m s) ∧
      (∀ g2, backwardPass cb sO sN delta ko ((e : Int) + 1) cif fwd ks b2
          = (none, g2) →
        (∀ j : Int, (∀ k2 ∈ ks, j ≠ ko + (k2 + delta)) → g2 j = b2 j) ∧
        (∀ k2 ∈ ks, domB cb sO sN n m (e + 1) ko (k2 + delta) g2 ∧
          cleanB n m ko (k2 + delta) g2 ∧
          ¬(¬(cif = true) ∧
            (-((e : Int) + 1) ≤ k2 + delta ∧ k2 + delta ≤ (e : Int) + 1) ∧
            g2 (ko + (k2 + delta)) ≤ fwd (ko + (k2 + delta)))))) :
    (∀ s f2,
      (if ¬(cif = true) ∧ (-((e : Int) + 1) ≤ k + delta ∧ k + delta ≤ (e : Int) + 1) ∧
          upd b (ko + (k + delta))
            (slideBackward cb sO sN xpre (xpre - (k + delta))).1 (ko + (k + delta))
            ≤ fwd (ko + (k + delta)) then
        (some { x := upd b (ko + (k + delta))
                  (slideBackward cb sO sN xpre (xpre - (k + delta))).1 (ko + (k + delta)),
                y := upd b (ko + (k + delta))
                    (slideBackward cb sO sN xpre (xpre - (k + delta))).1 (ko + (k + delta))
                  - (k + delta),
                size := fwd (ko + (k + delta)) - upd b (ko + (k + delta))
                    (slideBackward cb sO sN xpre (xpre - (k + delta))).1 (ko + (k + delta)),
                removal := rem, reverse := true },
          upd b (ko + (k + delta))
            (slideBackward cb sO sN xpre (xpre - (k + delta))).1)
      else
        backwardPass cb sO sN delta ko ((e : Int) + 1) cif fwd ks
          (upd b (ko + (k + delta))
            (slideBackward cb sO sN xpre (xpre - (k + delta))).1))
        = (some s, f2) → snakeGood n m s) ∧
    (∀ f2,
      (if ¬(cif = true) ∧ (-((e : Int) + 1) ≤ k + delta ∧ k + delta ≤ (e : Int) + 1) ∧
          upd b (ko + (k + delta))
            (slideBackward cb sO sN xpre (xpre - (k + delta))).1 (ko + (k + delta))
            ≤ fwd (ko + (k + delta)) then
        (some { x := upd b (ko + (k + delta))
                  (slideBackward cb sO sN xpre (xpre - (k + delta))).1 (ko + (k + delta)),
                y := upd b (ko + (k + delta))
                    (slideBackward cb sO sN xpre (xpre - (k + delta))).1 (ko + (k + delta))
                  - (k + delta),
                size := fwd (ko + (k + delta)) - upd b (ko + (k + delta))
                    (slideBackward cb sO sN xpre (xpre - (k + delta))).1 (ko + (k + delta)),
                removal := rem, reverse := true },
          upd b (ko + (k + delta))
            (slideBackward cb sO sN xpre (xpre - (k + delta))).1)
      else
        backwardPass cb sO sN delta ko ((e : Int) + 1) cif fwd ks
          (upd b (ko + (k + delta))
            (slideBackward cb sO sN xpre (xpre - (k + delta))).1))
        = (none, f2) →
      (∀ j : Int, (∀ k2 ∈ k :: ks, j ≠ ko + (k2 + delta)) → f2 j = b j) ∧
      (∀ k2 ∈ k :: ks, domB cb sO sN n m (e + 1) ko (k2 + delta) f2 ∧
        cleanB n m ko (k2 + delta) f2 ∧
        ¬(¬(cif = true) ∧
          (-((e : Int) + 1) ≤ k2 + delta ∧ k2 + delta ≤ (e : Int) + 1) ∧
          f2 (ko + (k2 + delta)) ≤ fwd (ko + (k2 + delta))))) := by
  obtain ⟨hA, hB, hC, hD⟩ := backwardVal_facts cb sO sN n m delta ko e hn hm hdnm
    (k + delta) t0 hq1 hq2 hqp b hprev xpre rem hle1 hle2 hremk hnonk
  set V := (slideBackward cb sO sN xpre (xpre - (k + delta))).1 with hV
  have hupd_self : upd b (ko + (k + delta)) V (ko + (k + delta)) = V := by simp [upd]
  have hwin2 : ∀ j : Int, delta - (e : Int) ≤ j → j ≤ delta + (e : Int) →
      (∃ t : Int, j = delta - (e : Int) + 2 * t) →
      domB cb sO sN n m e ko j (upd b (ko + (k + delta)) V) ∧
        cleanB n m ko j (upd b (ko + (k + delta)) V) := by
    intro j hj1 hj2 hjp
    obtain ⟨tj, htj⟩ := hjp
    have hne : ko + j ≠ ko + (k + delta) := by omega
    have heq : upd b (ko + (k + delta)) V (ko + j) = b (ko + j) := by simp [upd, hne]
    have hw := hprev j hj1 hj2 ⟨tj, htj⟩
    constructor
    · intro x y hp hd
      rw [heq]
      exact hw.1 x y hp hd
    · show upd b (ko + (k + delta)) V (ko + j) ≤ min n (m + j)
      rw [heq]
      exact hw.2
  by_cases hchk : ¬(cif = true) ∧
      (-((e : Int) + 1) ≤ k + delta ∧ k + delta ≤ (e : Int) + 1) ∧
      upd b (ko + (k + delta)) V (ko + (k + delta)) ≤ fwd (ko + (k + delta))
  · rw [if_pos hchk]
    constructor
    · intro s f2 heq
      injection heq with h1 h2
      injection h1 with hs2
      rw [← hs2]
      obtain ⟨hcif, ⟨hband1, hband2⟩, hge⟩ := hchk
      rw [hupd_self] at hge
      obtain ⟨u, hu⟩ := heven (by
        cases cif with
        | false => rfl
        | true => exact absurd rfl hcif)
      have hclf : cleanF ko (k + delta) fwd :=
        hfw (k + delta) (by omega) (by omega) ⟨u + t0, by omega⟩
      have hclf2 : max 0 (k + delta) ≤ fwd (ko + (k + delta)) := hclf
      refine ⟨?_, ?_, ?_, ?_, ?_, ?_, ?_⟩
      · show 0 ≤ fwd (ko + (k + delta)) - upd b (ko + (k + delta)) V (ko + (k + delta))
        rw [hupd_self]
        omega
      · show upd b (ko + (k + delta)) V (ko + (k + delta)) ≤ n
        rw [hupd_self]
        omega
      · show upd b (ko + (k + delta)) V (ko + (k + delta)) - (k + delta) ≤ m
        rw [hupd_self]
        omega
      · show 0 ≤ upd b (ko + (k + delta)) V (ko + (k + delta)) +
          (fwd (ko + (k + delta)) - upd b (ko + (k + delta)) V (ko + (k + delta)))
        rw [hupd_self]
        omega
      · show 0 ≤ upd b (ko + (k + delta)) V (ko + (k + delta)) - (k + delta) +
          (fwd (ko + (k + delta)) - upd b (ko + (k + delta)) V (ko + (k + delta)))
        rw [hupd_self]
        omega
      · intro habs
        exact absurd habs (by simp)
      · intro _
        constructor
        · intro hr
          show upd b (ko + (k + delta)) V (ko + (k + delta)) ≤ n - 1
          rw [hupd_self]
          exact hC hr
        · intro hr
          show upd b (ko + (k + delta)) V (ko + (k + delta)) - (k + delta) ≤ m - 1
          rw [hupd_self]
          exact hD hr
    · intro f2 heq
      exact absurd heq (by simp)
  · rw [if_neg hchk]
    have hih := ih (upd b (ko + (k + delta)) V) hwin2
    constructor
    · exact hih.1
    · intro f2 heq
      obtain ⟨hagree, hfacts2⟩ := hih.2 f2 heq
      have hpos : f2 (ko + (k + delta)) = V := by
        rw [hagree (ko + (k + delta))
          (fun k2 hk2m => by have := hhead k2 hk2m; omega), hupd_self]
      constructor
      · intro j hj
        rw [hagree j (fun k2 h2 => hj k2 (List.mem_cons_of_mem k h2))]
        have hne : j ≠ ko + (k + delta) := hj k (List.mem_cons_self k ks)
        simp [upd, hne]
      · intro k2 hk2m
        rcases List.mem_cons.mp hk2m with rfl | h2
        · refine ⟨?_, ?_, ?_⟩
          · intro x y hp hd
            rw [hpos]
            exact hA x y hp hd
          · show f2 (ko + (k2 + delta)) ≤ min n (m + (k2 + delta))
            rw [hpos]
            exact hB
          · intro hcontra
            refine hchk ⟨hcontra.1, hcontra.2.1, ?_⟩
            rw [hupd_self, ← hpos]
            exact hcontra.2.2
        · exact hfacts2 k2 h2

/-- Full specification of one backward pass at depth `e + 1`: a returned
snake satisfies the geometric bounds `snakeGood`, and a completed pass
leaves an array that minorises every depth-`(e + 1)` co-path, keeps the
clean upper bounds, touches only its own diagonals, and records that
every evaluated overlap check failed. -/
theorem backwardPass_spec (cb : DiffCallback) (sO sN n m delta ko : Int) (e : Nat)
    (cif : Bool) (fwd : Int → Int) (hn : 1 ≤ n) (hm : 1 ≤ m) (hdnm : delta = n - m)
    (heven : cif = false → ∃ t : Int, delta = 2 * t)
    (hfw : ∀ j : Int, -((e : Int) + 1) ≤ j → j ≤ (e : Int) + 1 →
      (∃ t : Int, j = -((e : Int) + 1) + 2 * t) → cleanF ko j fwd) :
    ∀ (ks : List Int) (b : Int → Int),
      (∀ k ∈ ks, -((e : Int) + 1) ≤ k ∧ k ≤ (e : Int) + 1 ∧
        ∃ t : Int, k = -((e : Int) + 1) + 2 * t) →
      ks.Pairwise (· < ·) →
      (∀ j : Int, delta - (e : Int) ≤ j → j ≤ delta + (e : Int) →
        (∃ t : Int, j = delta - (e : Int) + 2 * t) →
        domB cb sO sN n m e ko j b ∧ cleanB n m ko j b) →
      (∀ s f2, backwardPass cb sO sN delta ko ((e : Int) + 1) cif fwd ks b
          = (some s, f2) → snakeGood n m s) ∧
      (∀ f2, backwardPass cb sO sN delta ko ((e : Int) + 1) cif fwd ks b
          = (none, f2) →
        (∀ j : Int, (∀ k ∈ ks, j ≠ ko + (k + delta)) → f2 j = b j) ∧
        (∀ k ∈ ks, domB cb sO sN n m (e + 1) ko (k + delta) f2 ∧
          cleanB n m ko (k + delta) f2 ∧
          ¬(¬(cif = true) ∧
            (-((e : Int) + 1) ≤ k + delta ∧ k + delta ≤ (e : Int) + 1) ∧
            f2 (ko + (k + delta)) ≤ fwd (ko + (k + delta))))) := by
  intro ks
  induction ks with
  | nil =>
    intro b hks hpair hprev
    constructor
    · intro s f2 h
      exact absurd h (by simp [backwardPass])
    · intro f2 h
      have hf2 : b = f2 := by simpa [backwardPass] using h
      subst hf2
      exact ⟨fun j _ => rfl, fun k hk => absurd hk (List.not_mem_nil k)⟩
  | cons k rest ih =>
    intro b hks hpair hprev
    obtain ⟨hk1, hk2, t0, hkp⟩ := hks k (List.mem_cons_self k rest)
    have hksrest := fun k2 h2 => hks k2 (List.mem_cons_of_mem k h2)
    rw [List.pairwise_cons] at hpair
    obtain ⟨hhead, hptail⟩ := hpair
    have hih := fun (b2 : Int → Int) hw => ih b2 hksrest hptail hw
    rw [backwardPass_cons]
    by_cases hbr : k + delta = ((e : Int) + 1) + delta ∨ (k + delta ≠ -((e : Int) + 1) + delta ∧
        b (ko + (k + delta) - 1) < b (ko + (k + delta) + 1))
    · rw [if_pos hbr]
      refine backwardPass_spec_aux cb sO sN n m delta ko e cif fwd hn hm hdnm heven hfw
        k t0 (by omega) (by omega) (by omega) rest hhead b hprev
        (b (ko + (k + delta) - 1)) false ?_ ?_ ?_ ?_ hih
      · intro hkne
        rcases hbr with h | ⟨h1, h2⟩
        · exact absurd (by omega) hkne
        · omega
      · intro _
        exact le_refl _
      · intro h
        exact absurd h (by decide)
      · intro _
        rcases hbr with h | ⟨h1, h2⟩
        · omega
        · omega
    · rw [if_neg hbr]
      push_neg at hbr
      refine backwardPass_spec_aux cb sO sN n m delta ko e cif fwd hn hm hdnm heven hfw
        k t0 (by omega) (by omega) (by omega) rest hhead b hprev
        (b (ko + (k + delta) + 1) - 1) true ?_ ?_ ?_ ?_ hih
      · intro _
        exact le_refl _
      · intro hkne
        have := hbr.2 (by omega)
        omega
      · intro _
        have := hbr.1
        omega
      · intro h
        exact absurd h (by decide)

/-- The diagonal list of depth zero. -/
theorem kList_zero : kList 0 = [0] := rfl

/-- The forward pass of depth `0`: it never returns a snake (the check
band is empty), writes the length of the initial matching run at the
centre diagonal, and that value dominates every zero-cost forward path. -/
theorem forwardPass_round0 (cb : DiffCallback) (sO sN n m delta ko : Int)
    (cif : Bool) (b : Int → Int) (hn : 1 ≤ n) (hm : 1 ≤ m)
    (f : Int → Int) (hfill : f (ko + 1) = 0) :
    ∃ V0 : Int, forwardPass cb sO sN n m delta ko 0 cif b (kList 0) f
        = (none, upd f ko V0) ∧
      0 ≤ V0 ∧ V0 ≤ n ∧
      (∀ px py : Int, PathF cb sO sN n m 0 px py → px - py = 0 → px ≤ V0) ∧
      (0 < V0 → cb.areItemsTheSame (sO + (V0 - 1)) (sN + (V0 - 1)) = true) := by
  rw [kList_zero, forwardPass_cons]
  rw [if_pos (Or.inl (by omega))]
  rw [if_neg (by
    intro hcontra
    obtain ⟨h1, ⟨h2, h3⟩, h4⟩ := hcontra
    omega)]
  simp only [forwardPass, add_zero, sub_zero]
  rw [hfill]
  refine ⟨(slideForward cb sO sN n m 0 0).1, rfl, ?_, ?_, ?_, ?_⟩
  · have := slideForwardGo_fst_ge cb sO sN n m (n - 0).toNat 0 0
    simpa [slideForward] using this
  · have := slideForwardGo_fst_le cb sO sN n m (n - 0).toNat 0 0 (by omega)
    simpa [slideForward] using this
  · intro px py hpath hdiag
    obtain ⟨hxy, hpx0, hcells⟩ := pathF_zero cb sO sN n m 0 px py hpath rfl
    have hpxn : px ≤ n :=
      (pathF_bounds cb sO sN n m (by omega) (by omega) 0 px py hpath).2.1
    simp only [slideForward]
    exact slideForwardGo_dom cb sO sN n m 0 px hpxn _ 0 0 (by ring)
      (by have := Int.self_le_toNat (n - 0); omega) hcells
  · intro hpos
    have hlast := slideForwardGo_last cb sO sN n m (n - 0).toNat 0 0
    simp only [slideForward] at hpos ⊢
    have h2 := hlast hpos
    simpa using h2

/-- The backward pass of depth `0`: a snake is only returned on the
square case `delta = 0` and then satisfies the geometric bounds, using
that the initial matching run cannot cover the whole square when the
corner cell does not match; otherwise the corner value settles at the
`delta` diagonal with the dual domination and clean bounds. -/
theorem backwardPass_round0 (cb : DiffCallback) (sO sN n m delta ko : Int)
    (cif : Bool) (fwd : Int → Int) (hn : 1 ≤ n) (hm : 1 ≤ m) (hdnm : delta = n - m)
    (b : Int → Int) (hfillb : b (ko + delta - 1) = n)
    (hfw : delta = 0 → (0 ≤ fwd (ko + delta) ∧ fwd (ko + delta) ≤ n ∧
      (0 < fwd (ko + delta) →
        cb.areItemsTheSame (sO + (fwd (ko + delta) - 1))
          (sN + (fwd (ko + delta) - 1)) = true))) :
    (∀ s b2, backwardPass cb sO sN delta ko 0 cif fwd (kList 0) b
        = (some s, b2) → snakeGood n m s) ∧
    (∀ b2, backwardPass cb sO sN delta ko 0 cif fwd (kList 0) b
        = (none, b2) →
      domB cb sO sN n m 0 ko delta b2 ∧ cleanB n m ko delta b2) := by
  rw [kList_zero, backwardPass_cons]
  rw [if_pos (Or.inl (by omega))]
  simp only [zero_add]
  have hidx : ko + delta - 1 = ko + delta - 1 := rfl
  rw [hfillb]
  set W := (slideBackward cb sO sN n (n - delta)).1 with hW
  have hWle : W ≤ n := by
    have := slideBackwardGo_fst_le cb sO sN n.toNat n (n - delta)
    simpa [slideBackward] using this
  have hupd_self : upd b (ko + delta) W (ko + delta) = W := by simp [upd]
  by_cases hchk : ¬(cif = true) ∧ (-(0 : Int) ≤ delta ∧ delta ≤ 0) ∧
      upd b (ko + delta) W (ko + delta) ≤ fwd (ko + delta)
  · rw [if_pos hchk]
    obtain ⟨hcif, ⟨hb1, hb2⟩, hge⟩ := hchk
    have hd0 : delta = 0 := by omega
    rw [hupd_self] at hge
    obtain ⟨hf0, hfn, hflast⟩ := hfw hd0
    constructor
    · intro s b2 heq
      injection heq with h1 h2
      injection h1 with hs2
      rw [← hs2]
      have hWm1 : W ≤ m - 1 := by
        by_contra hcon
        have hWn : W = n := by omega
        have hnm : n = m := by omega
        have hstuck : ¬(n > 0 ∧ n - delta > 0 ∧
            cb.areItemsTheSame (sO + n - 1) (sN + (n - delta) - 1) = true) := by
          obtain ⟨f0, hf0eq⟩ : ∃ f0, n.toNat = f0 + 1 := ⟨n.toNat - 1, by omega⟩
          refine slideBackwardGo_stuck cb sO sN f0 n (n - delta) ?_
          rw [← hf0eq]
          have : (slideBackward cb sO sN n (n - delta)).1 = n := hWn
          simpa [slideBackward] using this
        have hfwn : fwd (ko + delta) = n := by omega
        have hmatch := hflast (by omega)
        rw [hfwn] at hmatch
        refine hstuck ⟨by omega, by omega, ?_⟩
        have e1 : sO + n - 1 = sO + (n - 1) := by ring
        have e2 : sN + (n - delta) - 1 = sN + (n - 1) := by omega
        rw [e1, e2]
        exact hmatch
      refine ⟨?_, ?_, ?_, ?_, ?_, ?_, ?_⟩
      · show 0 ≤ fwd (ko + delta) - upd b (ko + delta) W (ko + delta)
        rw [hupd_self]
        omega
      · show upd b (ko + delta) W (ko + delta) ≤ n
        rw [hupd_self]
        omega
      · show upd b (ko + delta) W (ko + delta) - delta ≤ m
        rw [hupd_self]
        omega
      · show 0 ≤ upd b (ko + delta) W (ko + delta) +
          (fwd (ko + delta) - upd b (ko + delta) W (ko + delta))
        rw [hupd_self]
        omega
      · show 0 ≤ upd b (ko + delta) W (ko + delta) - delta +
          (fwd (ko + delta) - upd b (ko + delta) W (ko + delta))
        rw [hupd_self]
        omega
      · intro habs
        exact absurd habs (by simp)
      · intro _
        constructor
        · intro hr
          simp at hr
        · intro _
          show upd b (ko + delta) W (ko + delta) - delta ≤ m - 1
          rw [hupd_self]
          omega
    · intro b2 heq
      exact absurd heq (by simp)
  · rw [if_neg hchk]
    constructor
    · intro s b2 heq
      exact absurd heq (by simp [backwardPass])
    · intro b2 heq
      rw [show backwardPass cb sO sN delta ko 0 cif fwd []
          (upd b (ko + delta) W) = (none, upd b (ko + delta) W) from rfl] at heq
      injection heq with h1 h2
      subst h2
      constructor
      · intro px py hpath hdiag
        obtain ⟨hxy, hpxn, hcells⟩ := pathB_zero cb sO sN n m 0 px py hpath rfl
        have hpx0 : 0 ≤ px :=
          (pathB_bounds cb sO sN n m (by omega) (by omega) 0 px py hpath).1
        rw [hupd_self]
        have hdd : n - m = delta := by omega
        rw [hdd] at hxy hcells
        simp only [slideBackward] at hW
        rw [hW]
        refine slideBackwardGo_dom cb sO sN n m delta px _ n (n - delta) (by ring)
          ?_ ?_
        · have := Int.self_le_toNat n
          omega
        · intro i hi1 hi2
          exact hcells i hi1 hi2
      · show upd b (ko + delta) W (ko + delta) ≤ min n (m + delta)
        rw [hupd_self]
        omega

/-- Depth induction of the search loop: starting from any depth `d` between
`1` and the midpoint depth `dstar` with the domination and clean windows of
the previous round in force, the loop returns a snake satisfying the
geometric bounds.  The midpoint `(xm, ym)` of a split staircase path forces
the overlap check to fire no later than round `dstar`. -/
theorem dLoop_spec (cb : DiffCallback) (sO sN n m delta dLimit ko : Int) (cif : Bool)
    (hn : 1 ≤ n) (hm : 1 ≤ m) (hdnm : delta = n - m)
    (hodd : cif = true → ∃ t : Int, delta = 2 * t + 1)
    (heven : cif = false → ∃ t : Int, delta = 2 * t)
    (dstar : Nat) (xm ym : Int)
    (hpf : PathF cb sO sN n m dstar xm ym)
    (hpbo : cif = true → PathB cb sO sN n m (dstar - 1) xm ym)
    (hpbe : cif = false → PathB cb sO sN n m dstar xm ym)
    (hds1 : 1 ≤ dstar) (hdsl : (dstar : Int) ≤ dLimit) :
    ∀ (fuel : Nat) (d : Nat) (f b : Int → Int),
      1 ≤ d → d ≤ dstar → dstar + 1 - d ≤ fuel →
      (∀ j : Int, -(d : Int) + 1 ≤ j → j ≤ (d : Int) - 1 →
        (∃ t : Int, j = -(d : Int) + 1 + 2 * t) →
        domF cb sO sN n m (d - 1) ko j f ∧ cleanF ko j f) →
      (∀ j : Int, delta - (d : Int) + 1 ≤ j → j ≤ delta + (d : Int) - 1 →
        (∃ t : Int, j = delta - (d : Int) + 1 + 2 * t) →
        domB cb sO sN n m (d - 1) ko j b ∧ cleanB n m ko j b) →
      ∃ s f2 b2,
        dLoop cb sO sN n m delta dLimit ko cif fuel d f b = (some s, f2, b2) ∧
          snakeGood n m s := by
  intro fuel
  induction fuel with
  | zero =>
    intro d f b hd1 hds hfuel hwf hwb
    omega
  | succ fl ih =>
    intro d f b hd1 hds hfuel hwf hwb
    obtain ⟨e, rfl⟩ : ∃ e, d = e + 1 := ⟨d - 1, by omega⟩
    simp only [Nat.add_sub_cancel] at hwf hwb
    have hcast : ((e + 1 : Nat) : Int) = (e : Int) + 1 := by push_cast; ring
    have hkfacts : ∀ k ∈ kList (e + 1), -((e : Int) + 1) ≤ k ∧ k ≤ (e : Int) + 1 ∧
        ∃ t : Int, k = -((e : Int) + 1) + 2 * t := by
      intro k hk
      obtain ⟨j, hj, hkj⟩ := (kList_mem (e + 1) k).mp hk
      exact ⟨by omega, by omega, ⟨(j : Int), by omega⟩⟩
    have hkmem : ∀ k : Int, -((e : Int) + 1) ≤ k → k ≤ (e : Int) + 1 →
        (∃ t : Int, k = -((e : Int) + 1) + 2 * t) → k ∈ kList (e + 1) := by
      intro k h1 h2 ⟨t, ht⟩
      exact (kList_mem (e + 1) k).mpr ⟨t.toNat, by omega, by omega⟩
    have hfspec := forwardPass_spec cb sO sN n m delta ko e cif b hn hm hodd
      (fun j h1 h2 ⟨t, ht⟩ => (hwb j (by omega) (by omega) ⟨t, by omega⟩).2)
      (kList (e + 1)) f hkfacts (kList_sorted (e + 1))
      (fun j h1 h2 ⟨t, ht⟩ => hwf j (by omega) (by omega) ⟨t, by omega⟩)
    simp only [dLoop, if_pos (show ((e + 1 : Nat) : Int) ≤ dLimit by
      push_cast; omega)]
    rw [hcast]
    rcases hfp : forwardPass cb sO sN n m delta ko ((e : Int) + 1) cif b
        (kList (e + 1)) f with ⟨ofp, f2⟩
    cases ofp with
    | some s =>
      exact ⟨s, f2, b, rfl, hfspec.1 s f2 hfp⟩
    | none =>
      obtain ⟨hfagree, hffacts⟩ := hfspec.2 f2 hfp
      have hfwwin : ∀ j : Int, -((e : Int) + 1) ≤ j → j ≤ (e : Int) + 1 →
          (∃ t : Int, j = -((e : Int) + 1) + 2 * t) → cleanF ko j f2 := by
        intro j h1 h2 hp
        exact (hffacts j (hkmem j h1 h2 hp)).2.1
      have hbspec := backwardPass_spec cb sO sN n m delta ko e cif f2 hn hm hdnm
        heven hfwwin (kList (e + 1)) b hkfacts (kList_sorted (e + 1))
        (fun j h1 h2 ⟨t, ht⟩ => hwb j (by omega) (by omega) ⟨t, by omega⟩)
      show ∃ s f2x b2x,
          (match backwardPass cb sO sN delta ko ((e : Int) + 1) cif f2
              (kList (e + 1)) b with
            | (some s, bwd2) => (some s, f2, bwd2)
            | (none, bwd2) =>
              dLoop cb sO sN n m delta dLimit ko cif fl (e + 1 + 1) f2 bwd2) =
            (some s, f2x, b2x) ∧ snakeGood n m s
      rcases hbp : backwardPass cb sO sN delta ko ((e : Int) + 1) cif f2
          (kList (e + 1)) b with ⟨obp, b2⟩
      cases obp with
      | some s =>
        exact ⟨s, f2, b2, rfl, hbspec.1 s b2 hbp⟩
      | none =>
        obtain ⟨hbagree, hbfacts⟩ := hbspec.2 b2 hbp
        rcases Nat.lt_or_ge (e + 1) dstar with hlt | hge
        · -- recurse into the next round
          refine ih (e + 1 + 1) f2 b2 (by omega) (by omega) (by omega) ?_ ?_
          · intro j h1 h2 ⟨t, ht⟩
            have hj1 : -((e : Int) + 1) ≤ j := by push_cast at h1 ⊢; omega
            have hj2 : j ≤ (e : Int) + 1 := by push_cast at h2 ⊢; omega
            have hmem := hkmem j hj1 hj2 ⟨t, by push_cast at ht ⊢; omega⟩
            have hf := hffacts j hmem
            have heq : e + 1 + 1 - 1 = e + 1 := by omega
            rw [heq]
            exact ⟨hf.1, hf.2.1⟩
          · intro j h1 h2 ⟨t, ht⟩
            have hj1 : -((e : Int) + 1) ≤ j - delta := by push_cast at h1 ⊢; omega
            have hj2 : j - delta ≤ (e : Int) + 1 := by push_cast at h2 ⊢; omega
            have hmem := hkmem (j - delta) hj1 hj2 ⟨t, by push_cast at ht ⊢; omega⟩
            have hb := hbfacts (j - delta) hmem
            have hidx : j - delta + delta = j := by ring
            rw [hidx] at hb
            have heq : e + 1 + 1 - 1 = e + 1 := by omega
            rw [heq]
            exact ⟨hb.1, hb.2.1⟩
        · -- the midpoint forces the check at this round: contradiction
          exfalso
          have hdeq : e + 1 = dstar := by omega
          obtain ⟨r1, t1, hc1, hc2⟩ := pathF_count cb sO sN n m dstar xm ym hpf
          cases hcif : cif with
          | true =>
            have hpb2 := hpbo hcif
            obtain ⟨r2, t2, hd1c, hd2c⟩ :=
              pathB_count cb sO sN n m (dstar - 1) xm ym hpb2
            have hmem : xm - ym ∈ kList (e + 1) :=
              hkmem (xm - ym) (by omega) (by omega) ⟨r1, by omega⟩
            have hf := hffacts (xm - ym) hmem
            refine hf.2.2 ⟨hcif, ⟨by omega, by omega⟩, ?_⟩
            have hup : xm ≤ f2 (ko + (xm - ym)) := hf.1 xm ym (by rw [hdeq]; exact hpf) rfl
            have hwin := hwb (xm - ym) (by omega) (by omega) ⟨t2, by omega⟩
            have hlo : b (ko + (xm - ym)) ≤ xm := by
              refine hwin.1 xm ym ?_ rfl
              have heq2 : e = dstar - 1 := by omega
              rw [heq2]
              exact hpb2
            omega
          | false =>
            have hpb2 := hpbe hcif
            obtain ⟨r2, t2, hd1c, hd2c⟩ := pathB_count cb sO sN n m dstar xm ym hpb2
            have hmemb : xm - ym - delta ∈ kList (e + 1) :=
              hkmem (xm - ym - delta) (by omega) (by omega) ⟨t2, by omega⟩
            have hb := hbfacts (xm - ym - delta) hmemb
            have hidx : xm - ym - delta + delta = xm - ym := by ring
            rw [hidx] at hb
            refine hb.2.2 ⟨by simp [hcif], ⟨by omega, by omega⟩, ?_⟩
            have hup : xm ≤ f2 (ko + (xm - ym)) := by
              refine (hffacts (xm - ym)
                (hkmem (xm - ym) (by omega) (by omega) ⟨r1, by omega⟩)).1 xm ym ?_ rfl
              rw [hdeq]
              exact hpf
            have hlo : b2 (ko + (xm - ym)) ≤ xm := by
              refine hb.1 xm ym ?_ rfl
              rw [hdeq]
              exact hpb2
            omega

/-- Entry round of the search loop: with freshly filled sentinel cells the
round `0` passes either return a good snake directly (square case) or set
up the windows required by the depth induction, which then yields a good
snake no later than the midpoint depth `dstar`. -/
theorem dLoop_entry (cb : DiffCallback) (sO sN n m delta dLimit ko : Int) (cif : Bool)
    (hn : 1 ≤ n) (hm : 1 ≤ m) (hdnm : delta = n - m)
    (hodd : cif = true → ∃ t : Int, delta = 2 * t + 1)
    (heven : cif = false → ∃ t : Int, delta = 2 * t)
    (dstar : Nat) (xm ym : Int)
    (hpf : PathF cb sO sN n m dstar xm ym)
    (hpbo : cif = true → PathB cb sO sN n m (dstar - 1) xm ym)
    (hpbe : cif = false → PathB cb sO sN n m dstar xm ym)
    (hds1 : 1 ≤ dstar) (hdsl : (dstar : Int) ≤ dLimit)
    (fuel : Nat) (hfuel : dstar ≤ fuel)
    (f b : Int → Int) (hfill : f (ko + 1) = 0) (hfillb : b (ko + delta - 1) = n) :
    ∃ s f2 b2, dLoop cb sO sN n m delta dLimit ko cif (fuel + 1) 0 f b
        = (some s, f2, b2) ∧ snakeGood n m s := by
  obtain ⟨V0, hfp, hV0, hVn, hdom0, hlast⟩ :=
    forwardPass_round0 cb sO sN n m delta ko cif b hn hm f hfill
  have hhfw : delta = 0 → (0 ≤ (upd f ko V0) (ko + delta) ∧
      (upd f ko V0) (ko + delta) ≤ n ∧
      (0 < (upd f ko V0) (ko + delta) →
        cb.areItemsTheSame (sO + ((upd f ko V0) (ko + delta) - 1))
          (sN + ((upd f ko V0) (ko + delta) - 1)) = true)) := by
    intro hd0
    have hidx : ko + delta = ko := by omega
    rw [hidx]
    have hself : upd f ko V0 ko = V0 := by simp [upd]
    rw [hself]
    exact ⟨hV0, hVn, hlast⟩
  have hb0 := backwardPass_round0 cb sO sN n m delta ko cif (upd f ko V0)
    hn hm hdnm b hfillb hhfw
  simp only [dLoop, Nat.cast_zero]
  rw [if_pos (show (0 : Int) ≤ dLimit by omega)]
  rw [hfp]
  show ∃ s f2 b2,
      (match backwardPass cb sO sN delta ko 0 cif (upd f ko V0) (kList 0) b with
        | (some s, bwd2) => (some s, upd f ko V0, bwd2)
        | (none, bwd2) =>
          dLoop cb sO sN n m delta dLimit ko cif fuel (0 + 1) (upd f ko V0) bwd2) =
        (some s, f2, b2) ∧ snakeGood n m s
  rcases hbp : backwardPass cb sO sN delta ko 0 cif (upd f ko V0) (kList 0) b
      with ⟨obp, b2⟩
  cases obp with
  | some s =>
    exact ⟨s, upd f ko V0, b2, rfl, hb0.1 s b2 hbp⟩
  | none =>
    obtain ⟨hdomB, hclB⟩ := hb0.2 b2 hbp
    have hmain := dLoop_spec cb sO sN n m delta dLimit ko cif hn hm hdnm hodd heven
      dstar xm ym hpf hpbo hpbe hds1 hdsl fuel 1 (upd f ko V0) b2
      (by omega) hds1 (by omega) ?_ ?_
    · obtain ⟨s, f2x, b2x, heq, hg⟩ := hmain
      exact ⟨s, f2x, b2x, heq, hg⟩
    · intro j h1 h2 _
      have hj0 : j = 0 := by push_cast at h1 h2; omega
      subst hj0
      constructor
      · intro px py hpath hdiag
        have := hdom0 px py hpath hdiag
        simpa [upd] using this
      · show max 0 0 ≤ upd f ko V0 (ko + 0)
        simpa [upd] using hV0
    · intro j h1 h2 _
      have hjd : j = delta := by push_cast at h1 h2; omega
      subst hjd
      exact ⟨hdomB, hclB⟩

/-- Unfolding of `DiffPartial` on a sub-range with at least one item on
each side: the guard falls through and the call reduces to the search
loop over the freshly filled sentinel windows. -/
theorem diffPartial_eq (cb : DiffCallback) (sO eO sN eN ko : Int)
    (f b : Int → Int) (h1 : ¬(eO - sO < 1 ∨ eN - sN < 1)) :
    diffPartial cb sO eO sN eN ko f b =
      match dLoop cb sO sN (eO - sO) (eN - sN) (eO - sO - (eN - sN))
          ((eO - sO + (eN - sN) + 1) / 2) ko ((eO - sO - (eN - sN)) % 2 != 0)
          (((eO - sO + (eN - sN) + 1) / 2 + 1)).toNat 0
          (fillRange f (ko - (eO - sO + (eN - sN) + 1) / 2 - 1)
            (ko + (eO - sO + (eN - sN) + 1) / 2 + 1) 0)
          (fillRange b (ko - (eO - sO + (eN - sN) + 1) / 2 - 1 + (eO - sO - (eN - sN)))
            (ko + (eO - sO + (eN - sN) + 1) / 2 + 1 + (eO - sO - (eN - sN)))
            (eO - sO)) with
      | (some s, fx, bx) => .ok (some s, fx, bx)
      | (none, _, _) => .error .diffInconsistency := by
  rw [diffPartial, if_neg h1]

/-- `DiffPartial` on a sub-range with at least one item on each side
always finds a middle snake: the inconsistency branch is unreachable and
the returned snake satisfies the geometric bounds that shrink the divide
step. -/
theorem diffPartial_some (cb : DiffCallback) (sO eO sN eN ko : Int)
    (f b : Int → Int) (hn : 1 ≤ eO - sO) (hm : 1 ≤ eN - sN) :
    ∃ s f2 b2, diffPartial cb sO eO sN eN ko f b = .ok (some s, f2, b2) ∧
      snakeGood (eO - sO) (eN - sN) s := by
  have hneg : ¬(eO - sO < 1 ∨ eN - sN < 1) := by omega
  rw [diffPartial_eq cb sO eO sN eN ko f b hneg]
  set n := eO - sO with hnd
  set m := eN - sN with hmd
  set delta := n - m with hdd
  set dLimit := (n + m + 1) / 2 with hdl
  set cif := (delta % 2 != 0) with hcif
  have hdl1 : 1 ≤ dLimit := by omega
  have hf1 : fillRange f (ko - dLimit - 1) (ko + dLimit + 1) 0 (ko + 1) = 0 := by
    simp only [fillRange]
    rw [if_pos ⟨by omega, by omega⟩]
  have hb1 : fillRange b (ko - dLimit - 1 + delta) (ko + dLimit + 1 + delta) n
      (ko + delta - 1) = n := by
    simp only [fillRange]
    rw [if_pos ⟨by omega, by omega⟩]
  have hodd : cif = true → ∃ t : Int, delta = 2 * t + 1 := by
    intro h
    rw [hcif, bne_iff_ne] at h
    exact ⟨(delta - 1) / 2, by omega⟩
  have heven : cif = false → ∃ t : Int, delta = 2 * t := by
    intro h
    rw [hcif, bne_eq_false_iff_eq] at h
    exact ⟨delta / 2, by omega⟩
  set dstar := (n.toNat + m.toNat + 1) / 2 with hdstar
  have hds1 : 1 ≤ dstar := by omega
  have hdsl : (dstar : Int) ≤ dLimit := by omega
  have hstair := pathF_staircase cb sO sN n m (by omega) (by omega)
  obtain ⟨xm, ym, hpf, hpb⟩ := pathF_split cb sO sN n m (n.toNat + m.toNat) n m
    hstair 0 PathB.corner dstar (by omega)
  rw [Nat.add_zero] at hpb
  have hpbo : cif = true → PathB cb sO sN n m (dstar - 1) xm ym := by
    intro h
    obtain ⟨t, ht⟩ := hodd h
    have he : n.toNat + m.toNat - dstar = dstar - 1 := by omega
    rwa [he] at hpb
  have hpbe : cif = false → PathB cb sO sN n m dstar xm ym := by
    intro h
    obtain ⟨t, ht⟩ := heven h
    have he : n.toNat + m.toNat - dstar = dstar := by omega
    rwa [he] at hpb
  obtain ⟨F, hF⟩ : ∃ F, (dLimit + 1).toNat = F + 1 := ⟨(dLimit + 1).toNat - 1, by omega⟩
  have hfuel : dstar ≤ F := by omega
  obtain ⟨s, f2, b2, heq, hg⟩ := dLoop_entry cb sO sN n m delta dLimit ko cif
    hn hm hdd hodd heven dstar xm ym hpf hpbo hpbe hds1 hdsl F hfuel
    (fillRange f (ko - dLimit - 1) (ko + dLimit + 1) 0)
    (fillRange b (ko - dLimit - 1 + delta) (ko + dLimit + 1 + delta) n)
    hf1 hb1
  rw [hF, heq]
  exact ⟨s, f2, b2, rfl, hg⟩

/-- One split step of the work loop: when `DiffPartial` on the popped
rectangle produces a middle snake, the loop continues on the stack with
the right and left sub-rectangles pushed (right on top), the snake
recorded when it has positive size, and the updated working arrays. -/
theorem calculateDiffLoop_step (cb : DiffCallback) (ko : Int) (fuel : Nat)
    (r : Range) (rest : List Range) (snakes : List Snake) (fwd bwd : Int → Int)
    (s : Snake) (f2 b2 : Int → Int)
    (hdp : diffPartial cb r.oldListStart r.oldListEnd r.newListStart r.newListEnd ko
        fwd bwd = .ok (some s, f2, b2)) :
    calculateDiffLoop cb ko (fuel + 1) (r :: rest) snakes fwd bwd =
      calculateDiffLoop cb ko fuel
        ((if s.reverse then
            if s.removal then
              ({ oldListStart := s.x + r.oldListStart + s.size + 1,
                 newListStart := s.y + r.newListStart + s.size,
                 oldListEnd := r.oldListEnd, newListEnd := r.newListEnd } : Range)
            else
              { oldListStart := s.x + r.oldListStart + s.size,
                newListStart := s.y + r.newListStart + s.size + 1,
                oldListEnd := r.oldListEnd, newListEnd := r.newListEnd }
          else
            { oldListStart := s.x + r.oldListStart + s.size,
              newListStart := s.y + r.newListStart + s.size,
              oldListEnd := r.oldListEnd, newListEnd := r.newListEnd }) ::
          (if s.reverse then
            ({ oldListStart := r.oldListStart, newListStart := r.newListStart,
               oldListEnd := s.x + r.oldListStart,
               newListEnd := s.y + r.newListStart } : Range)
          else if s.removal then
            { oldListStart := r.oldListStart, newListStart := r.newListStart,
              oldListEnd := s.x + r.oldListStart - 1,
              newListEnd := s.y + r.newListStart }
          else
            { oldListStart := r.oldListStart, newListStart := r.newListStart,
              oldListEnd := s.x + r.oldListStart,
              newListEnd := s.y + r.newListStart - 1 })
          :: rest)
        (if s.size > 0 then snakes ++ [s] else snakes) f2 b2 := by
  simp only [calculateDiffLoop]
  rw [hdp]

/-- Fuel-indexed totality of the work loop: as long as the fuel covers the
stack weight, the loop never runs out of fuel and never meets the
inconsistency fault, because every popped rectangle is either empty in one
dimension or splits through a middle snake into strictly lighter work. -/
theorem calculateDiffLoop_total (cb : DiffCallback) (ko : Int) :
    ∀ (fuel : Nat) (stack : List Range) (snakes : List Snake) (fwd bwd : Int → Int),
      stackWeight stack ≤ fuel →
      ∃ res, calculateDiffLoop cb ko fuel stack snakes fwd bwd = .ok res := by
  intro fuel
  induction fuel with
  | zero =>
    intro stack snakes fwd bwd hw
    cases stack with
    | nil => exact ⟨snakes, rfl⟩
    | cons r rest => exact absurd hw (by simp [stackWeight])
  | succ fl ih =>
    intro stack snakes fwd bwd hw
    cases stack with
    | nil => exact ⟨snakes, rfl⟩
    | cons r rest =>
      by_cases hempty : r.oldListEnd - r.oldListStart < 1 ∨
          r.newListEnd - r.newListStart < 1
      · have hdp := diffPartial_empty cb r.oldListStart r.oldListEnd r.newListStart
          r.newListEnd ko fwd bwd hempty
        obtain ⟨res, hres⟩ := ih rest snakes fwd bwd (by
          simp only [stackWeight] at hw
          omega)
        refine ⟨res, ?_⟩
        simp only [calculateDiffLoop]
        rw [hdp]
        exact hres
      · push_neg at hempty
        obtain ⟨hro, hrn⟩ := hempty
        obtain ⟨s, f2, b2, hdp, hg⟩ := diffPartial_some cb r.oldListStart r.oldListEnd
          r.newListStart r.newListEnd ko fwd bwd (by omega) (by omega)
        rw [calculateDiffLoop_step cb ko fl r rest snakes fwd bwd s f2 b2 hdp]
        obtain ⟨hsz, hxn, hym, hxs, hys, hfwd, hbwd⟩ := hg
        simp only [stackWeight] at hw
        refine ih _ _ f2 b2 ?_
        rcases hrev : s.reverse with _ | _
        · rcases hrem : s.removal with _ | _
          · have h1 := (hfwd hrev).2 hrem
            simp only [hrev, hrem, Bool.false_eq_true, if_false, stackWeight,
              rangeItems] at hw ⊢
            omega
          · have h1 := (hfwd hrev).1 hrem
            simp only [hrev, hrem, Bool.false_eq_true, if_false, if_true, stackWeight,
              rangeItems] at hw ⊢
            omega
        · rcases hrem : s.removal with _ | _
          · have h1 := (hbwd hrev).2 hrem
            simp only [hrev, hrem, Bool.false_eq_true, if_false, if_true, stackWeight,
              rangeItems] at hw ⊢
            omega
          · have h1 := (hbwd hrev).1 hrem
            simp only [hrev, hrem, if_true, stackWeight, rangeItems] at hw ⊢
            omega

/-- `CalculateDiff` never faults: for every oracle and flag the work loop
terminates inside its fuel and the inconsistency branch is unreachable. -/
theorem calculateDiff_total (cb : DiffCallback) (dm : Bool) :
    ∃ res, calculateDiff cb dm = .ok res := by
  by_cases hdeg : cb.getOldListSize < 1 ∨ cb.getNewListSize < 1
  · exact ⟨mkDiffResult cb [] dm, calculateDiff_one_side_empty cb dm hdeg⟩
  · push_neg at hdeg
    obtain ⟨ho, hn⟩ := hdeg
    obtain ⟨snakes, hsn⟩ := calculateDiffLoop_total cb
      (cb.getOldListSize + cb.getNewListSize +
        ((cb.getOldListSize - cb.getNewListSize).natAbs : Int))
      (2 * (cb.getOldListSize + cb.getNewListSize).toNat + 4)
      [{ oldListStart := 0, oldListEnd := cb.getOldListSize, newListStart := 0,
         newListEnd := cb.getNewListSize }] [] (fun _ => 0) (fun _ => 0)
      (by simp only [stackWeight, rangeItems]; omega)
    refine ⟨mkDiffResult cb (sortSnakes snakes) dm, ?_⟩
    simp only [calculateDiff]
    rw [hsn]
    rfl

/-- C8.  `DiffInconsistency` is unreachable for a stable oracle: the
oracle model is a fixed pure function of the index pair, and for every
such oracle `DiffPartial` on a sub-range with at least one item on each
side always finds and returns a middle snake within its bounded search of
depth at most `(oldLen + newLen + 1) / 2`, so the fault branch after the
loop is never reached; consequently `CalculateDiff` always returns a
result for every oracle and `detect_moves` flag. -/
theorem c8_inconsistency_unreachable (cb : DiffCallback) (dm : Bool)
    (sO eO sN eN ko : Int) (f b : Int → Int)
    (hn : 1 ≤ eO - sO) (hm : 1 ≤ eN - sN) :
    (∃ s f2 b2, diffPartial cb sO eO sN eN ko f b = .ok (some s, f2, b2)) ∧
    (∃ res, calculateDiff cb dm = .ok res) := by
  constructor
  · obtain ⟨s, f2, b2, heq, -⟩ := diffPartial_some cb sO eO sN eN ko f b hn hm
    exact ⟨s, f2, b2, heq⟩
  · exact calculateDiff_total cb dm

/-- C8, witness at a concrete input: the two-item swap oracle, its full
range, and zeroed working arrays. -/
theorem c8_inconsistency_unreachable_witness :
    ((1 : Int) ≤ 2 - 0 ∧ (1 : Int) ≤ 2 - 0) ∧
    ((∃ s f2 b2, diffPartial (callbackOfLists [(1,1),(2,2)] [(2,2),(1,1)]) 0 2 0 2 4
        (fun _ => 0) (fun _ => 0) = .ok (some s, f2, b2)) ∧
      (∃ res, calculateDiff (callbackOfLists [(1,1),(2,2)] [(2,2),(1,1)]) true
        = .ok res)) :=
  ⟨⟨by decide, by decide⟩,
    c8_inconsistency_unreachable (callbackOfLists [(1,1),(2,2)] [(2,2),(1,1)]) true
      0 2 0 2 4 (fun _ => 0) (fun _ => 0) (by decide) (by decide)⟩

end DiffUtil

end Pandora
